import Mathlib

/-!
Verification of the core generation pipeline of the `kick` project-scaffolding
tool: the configuration model (`internal/config`), the template rendering
engine (`internal/renderer/renderer.go`) and the hook executor.

Modelling conventions:
* Go byte strings are modelled as `List Nat` (each element a byte value).
  Template syntax, path separators and glob metacharacters are all ASCII, so
  working bytewise is faithful; Unicode-aware case mappings
  (`unicode.IsUpper`, `cases.Upper`, ...) are modelled on their ASCII
  fragment, and `strings.TrimSpace` on the ASCII whitespace class.
* Go's `text/template` engine (an external library used with
  `Option("missingkey=error")`) is modelled on the fragment the templates of
  this system use: literal text and `{{.key}}` actions with an optional
  pipeline of argumentless helper functions.  Parsing an action whose
  function is not registered fails at parse time, and executing a reference
  to a key absent from the data fails at execution time, exactly as in the
  library.
* Filesystem effects are modelled by pure functions that return the list of
  writes a run performs; an error value means the corresponding write does
  not happen.
* `float64` arithmetic in `isBinary` (the `> 0.3` ratio test) is modelled
  over `ℚ`; for samples of at most 1024 bytes the rational comparison and the
  double-precision comparison agree, since the two sides are either equal or
  at least `1/10240` apart.
-/

deriving instance DecidableEq for Except

namespace Kick

/-- Bytes of an ASCII string literal (used to write byte lists readably). -/
def sb (s : String) : List Nat := s.toList.map Char.toNat

/-- ASCII whitespace bytes: tab, LF, VT, FF, CR, space.  This is the ASCII
fragment of the class trimmed by Go's `strings.TrimSpace`. -/
def isSpaceByte (b : Nat) : Bool := b == 32 || (9 ≤ b && b ≤ 13)

/-- `strings.TrimSpace`, restricted to ASCII whitespace: drop whitespace
bytes from both ends. -/
def trimSpaceB (l : List Nat) : List Nat :=
  ((l.dropWhile isSpaceByte).reverse.dropWhile isSpaceByte).reverse

/-- `strings.Trim(s, "_")`: drop underscore bytes (95) from both ends. -/
def trimUnderscore (l : List Nat) : List Nat :=
  ((l.dropWhile (· == 95)).reverse.dropWhile (· == 95)).reverse

/-! ## Binary/text classifier (`isBinary`, renderer.go lines 239-269) -/

/-- `isPrintableOrWhitespace` from renderer.go line 350: printable ASCII
(0x20-0x7E) or tab/LF/CR. -/
def isPrintableOrWhitespace (b : Nat) : Bool :=
  (0x20 ≤ b && b ≤ 0x7E) || b == 0x09 || b == 0x0A || b == 0x0D

mutual

/-- Go's `utf8.Valid`: the byte list is a concatenation of well-formed UTF-8
rune encodings (no surrogates, no overlong forms, max U+10FFFF).  This is a
transcription of the `first`/`acceptRanges` tables of Go's `unicode/utf8`
package: the leading byte selects the range `[lo,hi]` allowed for the first
continuation byte and the number of continuation bytes. -/
def utf8Valid : List Nat → Bool
  | [] => true
  | b :: rest =>
    if b ≤ 0x7F then utf8Valid rest
    else if 0xC2 ≤ b && b ≤ 0xDF then utf8Tail1 0x80 0xBF rest
    else if b == 0xE0 then utf8Tail2 0xA0 0xBF rest
    else if (0xE1 ≤ b && b ≤ 0xEC) || b == 0xEE || b == 0xEF then
      utf8Tail2 0x80 0xBF rest
    else if b == 0xED then utf8Tail2 0x80 0x9F rest
    else if b == 0xF0 then utf8Tail3 0x90 0xBF rest
    else if 0xF1 ≤ b && b ≤ 0xF3 then utf8Tail3 0x80 0xBF rest
    else if b == 0xF4 then utf8Tail3 0x80 0x8F rest
    else false

/-- One continuation byte in `[lo,hi]`, then the remainder must be valid. -/
def utf8Tail1 (lo hi : Nat) : List Nat → Bool
  | c :: r => (lo ≤ c && c ≤ hi) && utf8Valid r
  | [] => false

/-- A continuation byte in `[lo,hi]`, then one standard continuation byte,
then the remainder must be valid. -/
def utf8Tail2 (lo hi : Nat) : List Nat → Bool
  | c :: r => (lo ≤ c && c ≤ hi) && utf8Tail1 0x80 0xBF r
  | [] => false

/-- A continuation byte in `[lo,hi]`, then two standard continuation bytes,
then the remainder must be valid. -/
def utf8Tail3 (lo hi : Nat) : List Nat → Bool
  | c :: r => (lo ≤ c && c ≤ hi) && utf8Tail2 0x80 0xBF r
  | [] => false

end

/-- `isBinary` from renderer.go: sample the first 1024 bytes; null byte means
binary; valid UTF-8 means text; otherwise binary iff strictly more than 30%
of the sample is neither printable ASCII nor tab/LF/CR.  The `float64` ratio
test of the source is modelled exactly over `ℚ` (see the module comment). -/
def isBinary (data : List Nat) : Bool :=
  let sample := data.take 1024
  if sample.contains 0 then true
  else if utf8Valid sample then false
  else
    let nonPrintable := sample.countP (fun b => !isPrintableOrWhitespace b)
    decide ((nonPrintable : ℚ) / (sample.length : ℚ) > 3 / 10)

/-! Specification-side reformulation of the classifier, written from the
words of the spec rather than from the source, for the C2 equivalence. -/

/-- Spec-side: a single well-formed UTF-8 rune encoding (ASCII byte, or a
2/3/4-byte sequence with the continuation ranges of the Unicode standard). -/
inductive Utf8Rune : List Nat → Prop where
  | ascii (b : Nat) : b ≤ 0x7F → Utf8Rune [b]
  | two (b c1 : Nat) : 0xC2 ≤ b → b ≤ 0xDF → 0x80 ≤ c1 → c1 ≤ 0xBF →
      Utf8Rune [b, c1]
  | threeE0 (c1 c2 : Nat) : 0xA0 ≤ c1 → c1 ≤ 0xBF → 0x80 ≤ c2 → c2 ≤ 0xBF →
      Utf8Rune [0xE0, c1, c2]
  | threeMid (b c1 c2 : Nat) :
      (0xE1 ≤ b ∧ b ≤ 0xEC) ∨ b = 0xEE ∨ b = 0xEF →
      0x80 ≤ c1 → c1 ≤ 0xBF → 0x80 ≤ c2 → c2 ≤ 0xBF →
      Utf8Rune [b, c1, c2]
  | threeED (c1 c2 : Nat) : 0x80 ≤ c1 → c1 ≤ 0x9F → 0x80 ≤ c2 → c2 ≤ 0xBF →
      Utf8Rune [0xED, c1, c2]
  | fourF0 (c1 c2 c3 : Nat) : 0x90 ≤ c1 → c1 ≤ 0xBF →
      0x80 ≤ c2 → c2 ≤ 0xBF → 0x80 ≤ c3 → c3 ≤ 0xBF →
      Utf8Rune [0xF0, c1, c2, c3]
  | fourMid (b c1 c2 c3 : Nat) : 0xF1 ≤ b → b ≤ 0xF3 →
      0x80 ≤ c1 → c1 ≤ 0xBF → 0x80 ≤ c2 → c2 ≤ 0xBF → 0x80 ≤ c3 → c3 ≤ 0xBF →
      Utf8Rune [b, c1, c2, c3]
  | fourF4 (c1 c2 c3 : Nat) : 0x80 ≤ c1 → c1 ≤ 0x8F →
      0x80 ≤ c2 → c2 ≤ 0xBF → 0x80 ≤ c3 → c3 ≤ 0xBF →
      Utf8Rune [0xF4, c1, c2, c3]

/-- Spec-side: a byte list is valid text when it is a concatenation of
well-formed rune encodings. -/
inductive Utf8Chunks : List Nat → Prop where
  | nil : Utf8Chunks []
  | cons (r l : List Nat) : Utf8Rune r → Utf8Chunks l → Utf8Chunks (r ++ l)

/-! ## Case-conversion helpers (renderer.go lines 287-363), ASCII fragment -/

/-- `unicode.IsUpper` on the ASCII range. -/
def isUpperB (b : Nat) : Bool := 65 ≤ b && b ≤ 90

/-- `unicode.IsLower` on the ASCII range. -/
def isLowerB (b : Nat) : Bool := 97 ≤ b && b ≤ 122

/-- `unicode.ToLower` on the ASCII range. -/
def toLowerB (b : Nat) : Nat := if isUpperB b then b + 32 else b

/-- `unicode.ToUpper` on the ASCII range. -/
def toUpperB (b : Nat) : Nat := if isLowerB b then b - 32 else b

/-- ASCII letter. -/
def isLetterB (b : Nat) : Bool := isUpperB b || isLowerB b

/-- Whether the head of the list is a lowercase ASCII letter; this is the
`s[i+1]` lookahead of `toSnakeCase`. -/
def headIsLower : List Nat → Bool
  | c :: _ => isLowerB c
  | [] => false

/-- The per-byte loop of `toSnakeCase`: spaces and hyphens become
underscores; an underscore is inserted before an uppercase letter that is not
at position 0 and is followed by a lowercase letter; every emitted letter is
lowercased.  `first` is true exactly at the first byte (`i = 0`). -/
def snakeCore : Bool → List Nat → List Nat
  | _, [] => []
  | first, b :: rest =>
    if b == 32 || b == 45 then 95 :: snakeCore false rest
    else if !first && isUpperB b && headIsLower rest then
      95 :: toLowerB b :: snakeCore false rest
    else toLowerB b :: snakeCore false rest

/-- `strings.ReplaceAll(s, "__", "_")`: a single left-to-right pass replacing
each non-overlapping occurrence of two underscores by one. -/
def replaceDoubleUnderscore : List Nat → List Nat
  | [] => []
  | [b] => [b]
  | b :: c :: rest =>
    if b = 95 ∧ c = 95 then 95 :: replaceDoubleUnderscore rest
    else b :: replaceDoubleUnderscore (c :: rest)

/-- `toSnakeCase` from renderer.go lines 290-304. -/
def toSnakeCase (s : List Nat) : List Nat :=
  trimUnderscore (replaceDoubleUnderscore (snakeCore true (trimSpaceB s)))

/-- `toKebabCase`: snake case with each underscore replaced by a hyphen. -/
def toKebabCase (s : List Nat) : List Nat :=
  (toSnakeCase s).map (fun b => if b == 95 then 45 else b)

/-- Split on whitespace, keeping the (possibly empty) pieces. -/
def splitOnSpace (acc : List Nat) : List Nat → List (List Nat)
  | [] => [acc.reverse]
  | b :: r =>
    if isSpaceByte b then acc.reverse :: splitOnSpace [] r
    else splitOnSpace (b :: acc) r

/-- `strings.Fields`: the maximal runs of non-whitespace bytes. -/
def fieldsB (l : List Nat) : List (List Nat) :=
  (splitOnSpace [] l).filter (· ≠ [])

/-- Uppercase the first byte (`strings.ToUpper(p[:1]) + p[1:]` on ASCII). -/
def capitalizeFirst : List Nat → List Nat
  | [] => []
  | b :: r => toUpperB b :: r

/-- `toCamelCase`: trim, turn hyphens/underscores into spaces, split into
words; the first word is lowercased whole, each later word is lowercased and
then gets its first byte uppercased. -/
def toCamelCase (s : List Nat) : List Nat :=
  let parts := fieldsB ((trimSpaceB s).map (fun b => if b == 45 || b == 95 then 32 else b))
  match parts with
  | [] => []
  | p :: ps => p.map toLowerB ++ (ps.map (fun q => capitalizeFirst (q.map toLowerB))).flatten

/-- `toPascalCase`: camel case with the first byte uppercased. -/
def toPascalCase (s : List Nat) : List Nat := capitalizeFirst (toCamelCase s)

/-- Approximation of `cases.Title(language.English)` on ASCII: uppercase a
letter that starts a letter run, lowercase the other letters.  No claim
evaluates this helper; it only occupies its slot in the function table. -/
def titleB : Bool → List Nat → List Nat
  | _, [] => []
  | prevLetter, b :: r =>
    (if isLetterB b && !prevLetter then toUpperB b else toLowerB b) ::
      titleB (isLetterB b) r

/-! ## Template engine (model of Go `text/template` with `missingkey=error`)

The modelled fragment is the one the system's templates use: literal text
and `{{.key}}` actions where `key` is an identifier and the action may carry
a pipeline of argumentless registered helpers (`{{.key | upper | trim}}`).
The two-argument `replace` helper and control structures (`if`/`range`) are
outside the fragment; templates using them are not in the model's parsed
language.  As in the library, a pipeline naming an unregistered function is
a parse error, and a reference to a key absent from the data is an
execution error (`missingkey=error`). -/

/-- Argumentless helper functions from `newTemplateFuncs` (renderer.go). -/
inductive Helper where
  | upper | lower | title | trim | snake | kebab | camel | pascal
  deriving DecidableEq, Repr

/-- A parsed template node. -/
inductive TNode where
  | text (s : List Nat)
  | var (key : List Nat) (pipes : List Helper)
  deriving DecidableEq, Repr

/-- Template parse errors. -/
inductive PErr where
  | unclosedAction
  | badAction
  | unknownFunction
  deriving DecidableEq, Repr

/-- Template render errors: a parse error, or the `missingkey=error`
execution error carrying the missing key. -/
inductive TErr where
  | parse (e : PErr)
  | missingKey (key : List Nat)
  deriving DecidableEq, Repr

/-- Dynamic template values (`map[string]any` of strings, numbers and
booleans; numbers are modelled as integers). -/
inductive TValue where
  | str (s : List Nat)
  | num (n : Int)
  | bool (b : Bool)
  deriving DecidableEq, Repr

/-- How a value prints when interpolated (`fmt` formatting). -/
def tvalBytes : TValue → List Nat
  | .str s => s
  | .num n => sb (toString n)
  | .bool true => sb "true"
  | .bool false => sb "false"

/-- The template data mapping; an association list standing for the Go map
(keys unique, only `lookupVal` observes it). -/
def Values : Type := List (List Nat × TValue)

/-- Map lookup. -/
def lookupVal (vals : Values) (k : List Nat) : Option TValue :=
  (List.find? (fun p => p.1 == k) vals).map Prod.snd

/-- Identifier bytes of a field name / function name. -/
def identByte (b : Nat) : Bool :=
  (65 ≤ b && b ≤ 90) || (97 ≤ b && b ≤ 122) || (48 ≤ b && b ≤ 57) || b == 95

/-- Whitespace inside an action. -/
def actionSpace (b : Nat) : Bool := b == 32 || b == 9 || b == 10 || b == 13

/-- A function table: the renderer registers the helper set of
`newTemplateFuncs`, the hook executor registers none. -/
def FuncTable : Type := List (List Nat × Helper)

/-- Function-name lookup in a table. -/
def lookupFn (funcs : FuncTable) (name : List Nat) : Option Helper :=
  (List.find? (fun p => p.1 == name) funcs).map Prod.snd

/-- The renderer's cached function map (`newTemplateFuncs`). -/
def rendererFuncs : FuncTable :=
  [(sb "upper", .upper), (sb "lower", .lower), (sb "title", .title),
   (sb "trim", .trim), (sb "snake", .snake), (sb "kebab", .kebab),
   (sb "camel", .camel), (sb "pascal", .pascal)]

/-- Apply a registered helper to a rendered string. -/
def applyHelper : Helper → List Nat → List Nat
  | .upper, s => s.map toUpperB
  | .lower, s => s.map toLowerB
  | .title, s => titleB false s
  | .trim, s => trimSpaceB s
  | .snake, s => toSnakeCase s
  | .kebab, s => toKebabCase s
  | .camel, s => toCamelCase s
  | .pascal, s => toPascalCase s

/-- Parse the pipeline part of an action: a possibly empty sequence of
`| fn` items whose names must be registered in the table.  The fuel exceeds
the input length at the call site; each step consumes at least the `|`
byte, so the fuel-exhaustion branch is unreachable. -/
def parsePipes (funcs : FuncTable) (key : List Nat) :
    Nat → List Nat → List Helper → Except PErr TNode
  | _, [], acc => .ok (.var key acc.reverse)
  | fuel + 1, 124 :: r, acc =>
    let r1 := r.dropWhile actionSpace
    let fname := r1.takeWhile identByte
    match lookupFn funcs fname with
    | none => .error .unknownFunction
    | some h =>
      parsePipes funcs key fuel ((r1.dropWhile identByte).dropWhile actionSpace) (h :: acc)
  | _ + 1, _ :: _, _ => .error .badAction
  | 0, _ :: _, _ => .error .badAction

/-- Parse the inside of one `{{ ... }}` action: optional spaces, a `.key`
field reference, then an optional pipeline. -/
def parseAction (funcs : FuncTable) (act : List Nat) : Except PErr TNode :=
  match act.dropWhile actionSpace with
  | 46 :: r =>
    let key := r.takeWhile identByte
    if key = [] then .error .badAction
    else
      parsePipes funcs key (r.length + 1)
        ((r.dropWhile identByte).dropWhile actionSpace) []
  | _ => .error .badAction

/-- Prepend a literal byte to a node list, merging it into a leading text
node. -/
def consText (c : Nat) : List TNode → List TNode
  | .text s :: ns => .text (c :: s) :: ns
  | ns => .text [c] :: ns

/-- The template parser over the modelled fragment, one byte at a time.
`none` is text mode; `some acc` is inside a `{{ ... }}` action whose bytes
so far are `acc` (reversed).  An action that is never closed is a parse
error, exactly as in the library's lexer. -/
def parseScan (funcs : FuncTable) : Option (List Nat) → List Nat → Except PErr (List TNode)
  | none, [] => .ok []
  | none, 123 :: 123 :: r => parseScan funcs (some []) r
  | none, c :: r => (parseScan funcs none r).map (consText c)
  | some _, [] => .error .unclosedAction
  | some acc, 125 :: 125 :: r => do
    let node ← parseAction funcs acc.reverse
    let ns ← parseScan funcs none r
    .ok (node :: ns)
  | some acc, c :: r => parseScan funcs (some (c :: acc)) r

/-- The template parser (`Parse` of the modelled fragment). -/
def parseTmpl (funcs : FuncTable) (tmpl : List Nat) : Except PErr (List TNode) :=
  parseScan funcs none tmpl

/-- Execute a parsed template against the data: text passes through, a field
reference looks its key up (failing on a missing key, as
`missingkey=error` prescribes), prints the value and applies its pipeline
left to right. -/
def execNodes (vals : Values) : List TNode → Except (List Nat) (List Nat)
  | [] => .ok []
  | .text s :: ns => (execNodes vals ns).map (s ++ ·)
  | .var k fs :: ns =>
    match lookupVal vals k with
    | none => .error k
    | some v =>
      (execNodes vals ns).map (fun r => fs.foldl (fun a f => applyHelper f a) (tvalBytes v) ++ r)

/-- Parse then execute: the composition performed by `renderString` /
`renderBytes` / `renderCommand` (`template.New(...).Funcs(...).
Option("missingkey=error").Parse` followed by `Execute`). -/
def renderTemplate (funcs : FuncTable) (tmpl : List Nat) (vals : Values) :
    Except TErr (List Nat) :=
  match parseTmpl funcs tmpl with
  | .error e => .error (.parse e)
  | .ok ns =>
    match execNodes vals ns with
    | .error k => .error (.missingKey k)
    | .ok r => .ok r

/-- The keys referenced by a parsed template. -/
def tmplRefs (ns : List TNode) : List (List Nat) :=
  ns.filterMap (fun n => match n with | .var k _ => some k | .text _ => none)

/-! ## Glob matching (model of Go `path/filepath.Match`)

A bytewise port of Go's `match.go` (ASCII fragment: `?` and character
classes consume one byte where Go decodes a rune).  `Except Unit Bool`
mirrors the Go pair `(matched, err)`: `.error ()` is `ErrBadPattern` with
`matched = false`.  The recursions are fuelled; every call site supplies
fuel exceeding the depth the algorithm can reach, so the fuel-exhaustion
branches are unreachable. -/

/-- Consume the leading `*`s of a pattern (`scanChunk`'s first loop). -/
def scanStars : List Nat → Bool × List Nat
  | 42 :: r => (true, (scanStars r).2)
  | l => (false, l)

/-- The scanning loop of `scanChunk`: collect bytes up to the next top-level
`*`, tracking bracket nesting, with `\\` skipping the next byte. -/
def scanChunkAux (inrange : Bool) : List Nat → List Nat × List Nat
  | [] => ([], [])
  | c :: cs =>
    if c = 42 ∧ ¬ inrange then ([], c :: cs)
    else if c = 92 then
      match cs with
      | [] => ([c], [])
      | d :: ds =>
        let p := scanChunkAux inrange ds
        (c :: d :: p.1, p.2)
    else
      let inr2 := if c = 91 then true else if c = 93 then false else inrange
      let p := scanChunkAux inr2 cs
      (c :: p.1, p.2)

/-- `scanChunk`: gets the next section of a pattern, a star (possibly
repeated) and a chunk up to the next star. -/
def scanChunk (pat : List Nat) : Bool × List Nat × List Nat :=
  let (star, p2) := scanStars pat
  let (chunk, rest) := scanChunkAux false p2
  (star, chunk, rest)

/-- `getEsc`: one possibly escaped byte of a character class; `ErrBadPattern`
on a dangling escape, an empty class element, or a chunk ending inside the
class. -/
def getEsc (chunk : List Nat) : Except Unit (Nat × List Nat) :=
  match chunk with
  | [] => .error ()
  | c :: cs =>
    if c = 45 ∨ c = 93 then .error ()
    else if c = 92 then
      match cs with
      | [] => .error ()
      | d :: ds => if ds = [] then .error () else .ok (d, ds)
    else if cs = [] then .error () else .ok (c, cs)

/-- The character-range loop of `matchChunk`'s `[` case: `r` is the byte
being matched (0 in failed mode), the accumulator `m` records whether some
range matched, `npos` whether at least one range has been parsed. -/
def matchRangesF (r : Nat) : Nat → List Nat → Bool → Bool → Except Unit (Bool × List Nat)
  | 0, _, _, _ => .error ()
  | fuel + 1, chunk, m, npos =>
    if (match chunk with | 93 :: _ => npos | _ => false) then
      .ok (m, chunk.tail)
    else
      match getEsc chunk with
      | .error _ => .error ()
      | .ok (lo, rest1) =>
        match rest1 with
        | 45 :: rest2 =>
          match getEsc rest2 with
          | .error _ => .error ()
          | .ok (hi, rest3) =>
            matchRangesF r fuel rest3 (m || (lo ≤ r && r ≤ hi)) true
        | _ => matchRangesF r fuel rest1 (m || (lo ≤ r && r ≤ lo)) true

/-- `matchChunk`: match a chunk against the start of a name.  `some s` is a
live match with remaining name `s`; `none` is Go's `failed` mode, which keeps
scanning the chunk so that malformed patterns are still reported. -/
def matchChunkF : Nat → List Nat → Option (List Nat) → Except Unit (Option (List Nat))
  | 0, _, _ => .error ()
  | _ + 1, [], s => .ok s
  | fuel + 1, c :: cs, s0 =>
    let s : Option (List Nat) := match s0 with
      | some [] => none
      | x => x
    if c = 91 then
      let rs : Nat × Option (List Nat) := match s with
        | some (x :: xs) => (x, some xs)
        | _ => (0, none)
      let nc : Bool × List Nat := match cs with
        | 94 :: t => (true, t)
        | t => (false, t)
      match matchRangesF rs.1 (nc.2.length + 1) nc.2 false false with
      | .error _ => .error ()
      | .ok (matched, rest) =>
        matchChunkF fuel rest (if matched = nc.1 then none else rs.2)
    else if c = 63 then
      let s2 : Option (List Nat) := match s with
        | some (x :: xs) => if x = 47 then none else some xs
        | _ => none
      matchChunkF fuel cs s2
    else if c = 92 then
      match cs with
      | [] => .error ()
      | d :: ds =>
        let s2 : Option (List Nat) := match s with
          | some (x :: xs) => if x = d then some xs else none
          | _ => none
        matchChunkF fuel ds s2
    else
      let s2 : Option (List Nat) := match s with
        | some (x :: xs) => if x = c then some xs else none
        | _ => none
      matchChunkF fuel cs s2

/-- The final loop of `Match`: before returning false, check that the rest
of the pattern is well-formed (chunks matched against the empty name only to
surface `ErrBadPattern`). -/
def validateRest : Nat → List Nat → Except Unit Bool
  | 0, _ => .error ()
  | fuel + 1, pat =>
    if pat = [] then .ok false
    else
      let sc := scanChunk pat
      match matchChunkF (sc.2.1.length + 1) sc.2.1 (some []) with
      | .error _ => .error ()
      | .ok _ => validateRest fuel sc.2.2

mutual

/-- The main loop of `filepath.Match`. -/
def goMatch : Nat → List Nat → List Nat → Except Unit Bool
  | 0, _, _ => .error ()
  | fuel + 1, pat, name =>
    if pat = [] then .ok (decide (name = []))
    else
      let sc := scanChunk pat
      let star := sc.1
      let chunk := sc.2.1
      let rest := sc.2.2
      if star ∧ chunk = [] then .ok (decide (¬ 47 ∈ name))
      else
        match matchChunkF (chunk.length + 1) chunk (some name) with
        | .error _ => .error ()
        | .ok (some t) =>
          if t = [] ∨ rest ≠ [] then goMatch fuel rest t
          else if star then starLoopF fuel chunk rest name
          else validateRest (rest.length + 1) rest
        | .ok none =>
          if star then starLoopF fuel chunk rest name
          else validateRest (rest.length + 1) rest

/-- The star-backtracking loop of `Match`: try to match the chunk at each
successive position of the name, never skipping a separator. -/
def starLoopF : Nat → List Nat → List Nat → List Nat → Except Unit Bool
  | 0, _, _, _ => .error ()
  | fuel + 1, chunk, rest, name =>
    match name with
    | [] => validateRest (rest.length + 1) rest
    | c :: name2 =>
      if c = 47 then validateRest (rest.length + 1) rest
      else
        match matchChunkF (chunk.length + 1) chunk (some name2) with
        | .error _ => .error ()
        | .ok (some t) =>
          if rest = [] ∧ t ≠ [] then starLoopF fuel chunk rest name2
          else goMatch fuel rest t
        | .ok none => starLoopF fuel chunk rest name2

end

/-- `filepath.Match(pattern, name)`. -/
def filepathMatch (pat name : List Nat) : Except Unit Bool :=
  goMatch (pat.length + name.length + 1) pat name

/-- The way the renderer consumes a match result: `matched, _ :=
filepath.Match(...)` discards the error, and Go returns `matched = false`
together with every error. -/
def matchBool (pat name : List Nat) : Bool :=
  match filepathMatch pat name with
  | .ok b => b
  | .error _ => false

/-! ## Path handling -/

/-- The splitting loop of `strings.Split(rel, "/")`. -/
def splitOnSlashAux (acc : List Nat) : List Nat → List (List Nat)
  | [] => [acc.reverse]
  | b :: r =>
    if b = 47 then acc.reverse :: splitOnSlashAux [] r
    else splitOnSlashAux (b :: acc) r

/-- `strings.Split(rel, string(os.PathSeparator))`, separator `/`. -/
def splitOnSlash (l : List Nat) : List (List Nat) := splitOnSlashAux [] l

/-- `filepath.Join` over the surviving segmentset: interpose `/`.
(`filepath.Join` additionally `Clean`s its result; the model assumes the
rendered segments are clean names without separators, which is the shape
template authors produce and the only one the claims exercise.) -/
def joinSegs : List (List Nat) → List Nat
  | [] => []
  | [s] => s
  | s :: rest => s ++ 47 :: joinSegs rest

/-- `filepath.Base`: the last element of the path after trailing separators
are removed; `"."` for the empty path, `"/"` for an all-separator path. -/
def baseName (p : List Nat) : List Nat :=
  if p = [] then sb "." else
  let q := (p.reverse.dropWhile (· == 47)).reverse
  if q = [] then [47]
  else (q.reverse.takeWhile (fun b => b != 47)).reverse

/-! ## Renderer pipeline (renderer.go) -/

/-- `config.TemplateSettings`. -/
structure TemplateSettings where
  ignorePatterns : List (List Nat)
  keepPermissions : Bool
  deriving DecidableEq, Repr

/-- `config.CutrYAML`, the template's own configuration file name. -/
def CutrYAML : List Nat := sb "cutr.yaml"

/-- `Renderer.shouldSkip`: version-control and config entries. -/
def shouldSkip (basename : List Nat) : Bool :=
  basename == sb ".git" || basename == CutrYAML

/-- `Renderer.shouldIgnoreWithSettings` (lines 366-385): for each pattern,
match against the base name, match against the full relative path, and for
directories compare the pattern with the base name for equality.  Match
errors are discarded (`matched, _ :=`). -/
def shouldIgnoreWithSettings (relPath : List Nat) (isDir : Bool)
    (settings : TemplateSettings) : Bool :=
  let basename := baseName relPath
  settings.ignorePatterns.any (fun pattern =>
    matchBool pattern basename || matchBool pattern relPath ||
      (isDir && pattern == basename))

/-- The per-segment loop of `renderPath`: trim the source segment, skip it
when blank, render it with the renderer's function map, trim the result,
drop it when empty; the first template error aborts. -/
def renderSegs (vals : Values) : List (List Nat) → Except TErr (List (List Nat))
  | [] => .ok []
  | s :: ss =>
    let t := trimSpaceB s
    if t = [] then renderSegs vals ss
    else
      match renderTemplate rendererFuncs t vals with
      | .error e => .error e
      | .ok r =>
        let r2 := trimSpaceB r
        if r2 = [] then renderSegs vals ss
        else (renderSegs vals ss).map (r2 :: ·)

/-- `Renderer.renderPath` (lines 144-164). -/
def renderPath (rel : List Nat) (vals : Values) : Except TErr (List Nat) :=
  (renderSegs vals (splitOnSlash rel)).map joinSegs

/-- Errors that stop a walk: a path-template error (wrapped
`"render path %q: %w"`) or a content-template error (wrapped
`"render template: %w"`). -/
inductive WalkErr where
  | renderPathErr (rel : List Nat) (e : TErr)
  | renderFileErr (e : TErr)
  deriving DecidableEq, Repr

/-- `Renderer.processFileWithSettings` (lines 388-427) as a pure function:
the content and mode written at the target, or the error that prevents the
write.  Binary content is copied unchanged; text content is rendered with
strict missing-key semantics.  `keepPermissions` selects the source mode,
otherwise the fixed default 0644.  (The `stat`/`read`/`MkdirAll` I/O error
paths are outside the pure model.) -/
def processFileWithSettings (content : List Nat) (srcMode : Nat)
    (vals : Values) (settings : TemplateSettings) :
    Except TErr (List Nat × Nat) :=
  let targetMode := if settings.keepPermissions then srcMode else 0o644
  if isBinary content then .ok (content, targetMode)
  else
    match renderTemplate rendererFuncs content vals with
    | .error e => .error e
    | .ok rendered => .ok (rendered, targetMode)

/-- A source tree entry; `name` is the base name (no separators). -/
inductive FsTree where
  | file (name : List Nat) (content : List Nat) (mode : Nat)
  | dir (name : List Nat) (children : List FsTree)

/-- The entry's base name. -/
def FsTree.name : FsTree → List Nat
  | .file n _ _ => n
  | .dir n _ => n

/-- The `DirEntry.IsDir` flag. -/
def FsTree.isDir : FsTree → Bool
  | .file _ _ _ => false
  | .dir _ _ => true

/-- Strict lexicographic byte order — the order `os.ReadDir` sorts directory
entries in. -/
def bytesLt : List Nat → List Nat → Bool
  | [], [] => false
  | [], _ :: _ => true
  | _ :: _, [] => false
  | a :: as, b :: bs => if a < b then true else if b < a then false else bytesLt as bs

/-- The reflexive closure of `bytesLt` used by insertion. -/
def bytesLe (a b : List Nat) : Bool := !(bytesLt b a)

/-- Insert an entry into a name-sorted list. -/
def insertByName (t : FsTree) : List FsTree → List FsTree
  | [] => [t]
  | u :: us => if bytesLe t.name u.name then t :: u :: us else u :: insertByName t us

/-- Sort a directory's entries by name. -/
def sortByName : List FsTree → List FsTree
  | [] => []
  | t :: ts => insertByName t (sortByName ts)

mutual

/-- Normalize a tree by sorting every directory's children by name — the
order `filepath.WalkDir` (via `os.ReadDir`) visits them, independent of the
order the OS happens to return them in. -/
def sortTree : FsTree → FsTree
  | .file n c m => .file n c m
  | .dir n cs => .dir n (sortByName (sortTrees cs))

/-- `sortTree` mapped over a child list. -/
def sortTrees : List FsTree → List FsTree
  | [] => []
  | t :: ts => sortTree t :: sortTrees ts

end

/-- A destination write: a directory creation or a file write. -/
inductive DEntry where
  | dirE
  | fileE (content : List Nat) (mode : Nat)
  deriving DecidableEq, Repr

/-- The observable outcome of a walk: destination writes in order, source
entries visited (by relative path, in visit order), and the error, if any,
that stopped the walk. -/
structure WalkOut where
  written : List (List Nat × DEntry)
  visited : List (List Nat)
  err : Option WalkErr
  deriving DecidableEq, Repr

/-- Extend a relative path by one name. -/
def relJoin (parent name : List Nat) : List Nat :=
  if parent = [] then name else parent ++ 47 :: name

mutual

/-- The walk callback of `RenderTreeWithSettings` (lines 92-141) for one
entry whose relative path is `rel`, plus the recursion into directories:
skip `.git`/`cutr.yaml` and ignored entries (whole subtree for directories),
render the relative path, skip the entry (subtree) when it renders empty,
record the directory creation or process the file.  An error stops the whole
walk immediately. -/
def walkNode (vals : Values) (settings : TemplateSettings) :
    FsTree → List Nat → WalkOut
  | t, rel =>
    if shouldSkip t.name then ⟨[], [rel], none⟩
    else if shouldIgnoreWithSettings rel t.isDir settings then ⟨[], [rel], none⟩
    else
      match renderPath rel vals with
      | .error e => ⟨[], [rel], some (.renderPathErr rel e)⟩
      | .ok targetRel =>
        if targetRel = [] then ⟨[], [rel], none⟩
        else
          match t with
          | .file _ content mode =>
            match processFileWithSettings content mode vals settings with
            | .error e => ⟨[], [rel], some (.renderFileErr e)⟩
            | .ok pair => ⟨[(targetRel, .fileE pair.1 pair.2)], [rel], none⟩
          | .dir _ cs =>
            let rest := walkList vals settings cs rel
            ⟨(targetRel, .dirE) :: rest.written, rel :: rest.visited, rest.err⟩

/-- Walk a directory's (already sorted) entries in order, stopping at the
first error. -/
def walkList (vals : Values) (settings : TemplateSettings) :
    List FsTree → List Nat → WalkOut
  | [], _ => ⟨[], [], none⟩
  | t :: ts, parentRel =>
    let r := walkNode vals settings t (relJoin parentRel t.name)
    match r.err with
    | some _ => r
    | none =>
      let rs := walkList vals settings ts parentRel
      ⟨r.written ++ rs.written, r.visited ++ rs.visited, rs.err⟩

end

/-- `Renderer.RenderTreeWithSettings`: walk the source root in lexical
order.  The root itself is the `rel = "."` entry the callback skips. -/
def renderTreeWithSettings (root : FsTree) (vals : Values)
    (settings : TemplateSettings) : WalkOut :=
  match sortTree root with
  | .dir _ cs => walkList vals settings cs []
  | .file _ _ _ => ⟨[], [], none⟩

/-! ## Hook executor (the hooks package, part of `internal`) -/

/-- `config.Hooks`: ordered command template lists for the two phases. -/
structure Hooks where
  preGeneration : List (List Nat)
  postGeneration : List (List Nat)
  deriving DecidableEq, Repr

/-- What the operating system reports for one shell invocation: exited zero;
ran and failed (the `cmd.Run`/`cmd.Wait` error text, plus what the process
wrote to stderr); or could not be started at all. -/
inductive ExecOutcome where
  | ok
  | exitErr (msg : List Nat) (stderr : List Nat)
  | startErr (msg : List Nat)
  deriving DecidableEq, Repr

/-- The environment oracle: the outcome of executing a rendered command
(`sh -c <cmd>` in the working directory).  The model treats the operating
system as a function of the rendered command string. -/
def ExecEnv : Type := List Nat → ExecOutcome

/-- `Executor.renderCommand`: the same template engine with
`missingkey=error` and — unlike the renderer — no registered helper
functions (`template.New("hook")` without `.Funcs`). -/
def renderCommand (cmd : List Nat) (vals : Values) : Except TErr (List Nat) :=
  renderTemplate [] cmd vals

/-- Error text of a template failure, the wrapped `err.Error()` chain.  The
library's exact wording is abbreviated; what matters to the claims is that
the text is a function of the failure alone. -/
def terrBytes : TErr → List Nat
  | .parse _ => sb "parse command template: template parse error"
  | .missingKey k => sb "execute command template: map has no entry for key " ++ k

/-- `Executor.executeCommand` (hooks executor lines 50-93): render the
command, then run it.  First component: the rendered command, when its
subprocess was launched.  Second: the error text built by the source's
`fmt.Errorf` wrapping — note that no branch includes the command string
itself.  With a stream, stderr is not captured and a launch failure reports
`start hook command`; without one, `cmd.Run` reports all failures as
`execute hook command` with buffered stderr appended when nonempty. -/
def executeCommand (stream : Bool) (env : ExecEnv) (vals : Values)
    (cmd : List Nat) : Option (List Nat) × Option (List Nat) :=
  match renderCommand cmd vals with
  | .error e => (none, some (sb "render hook command: " ++ terrBytes e))
  | .ok rc =>
    match env rc with
    | .ok => (some rc, none)
    | .exitErr msg stderr =>
      (some rc,
        some (sb "execute hook command: " ++ msg ++
          (if stream = false ∧ stderr ≠ [] then
            sb " (stderr: " ++ stderr ++ sb ")" else [])))
    | .startErr msg =>
      (none,
        some (if stream then sb "start hook command: " ++ msg
          else sb "execute hook command: " ++ msg))

/-- One hook phase: commands strictly in list order, stopping at the first
failure, whose error is wrapped with the phase prefix.  Returns the rendered
commands whose subprocess was launched, in order, and the phase's error. -/
def executePhase (wrap : List Nat) (stream : Bool) (env : ExecEnv)
    (vals : Values) : List (List Nat) → List (List Nat) × Option (List Nat)
  | [] => ([], none)
  | c :: cs =>
    match executeCommand stream env vals c with
    | (started, none) =>
      let r := executePhase wrap stream env vals cs
      (started.toList ++ r.1, r.2)
    | (started, some e) => (started.toList, some (wrap ++ e))

/-- `Executor.ExecutePreGeneration`. -/
def executePreGeneration (stream : Bool) (env : ExecEnv) (hooks : Hooks)
    (vals : Values) : List (List Nat) × Option (List Nat) :=
  executePhase (sb "execute pre-generation hook: ") stream env vals hooks.preGeneration

/-- `Executor.ExecutePostGeneration`. -/
def executePostGeneration (stream : Bool) (env : ExecEnv) (hooks : Hooks)
    (vals : Values) : List (List Nat) × Option (List Nat) :=
  executePhase (sb "execute post-generation hook: ") stream env vals hooks.postGeneration

/-! ## Configuration model (internal/config, cutr.yaml variant) -/

/-- A resolved YAML scalar value. -/
inductive YVal where
  | s (v : String)
  | i (v : Int)
  | b (v : Bool)
  deriving DecidableEq, Repr

/-- Modelled from the spec: the shape of a parsed `yaml.Node` tree that the
configuration parser consumes.  A mapping keeps its entries in source order;
`aliasNode` stands for a YAML alias, whose node kind is not `MappingNode`
(so the order extractor skips it) but which the decoder resolves to its
target. -/
inductive YNode where
  | scalar (v : YVal)
  | mapping (entries : List (String × YNode))
  | sequence (items : List YNode)
  | aliasNode (target : YNode)

/-- Modelled from the spec: a parsed YAML document node. -/
structure YDoc where
  content : List YNode

/-- `config.Variable` (part of the cutr.yaml schema). -/
structure Variable where
  type : String
  prompt : String := ""
  default : Option YVal := none
  choices : List String := []
  pattern : String := ""
  help : String := ""
  min : Int := 0
  max : Int := 0
  deriving DecidableEq, Repr

/-- A collected value (`any` restricted to the dynamic types the program
produces; the `float64` leg of the number check behaves like the integer
leg and is not modelled separately).  `other` stands for any dynamic type
that fails all the type assertions. -/
inductive VValue where
  | str (v : String)
  | int (v : Int)
  | bool (v : Bool)
  | other
  deriving DecidableEq, Repr

/-- The `regexp` package as an oracle: `matchString` is
`regexp.MatchString` (failing on an uncompilable pattern), `compileOk`
whether `regexp.Compile` succeeds.  No claim depends on the regular
expression semantics themselves. -/
structure RegexOracle where
  matchString : String → String → Except String Bool
  compileOk : String → Bool

/-- `Variable.Validate` (config source lines 240-296): per-value validation.
The switch covers exactly the four declared kinds; every other `Type` value
falls through to `return nil`. -/
def Variable.Validate (re : RegexOracle) (v : Variable) (value : VValue) :
    Option String :=
  if v.type = "string" then
    match value with
    | .str str =>
      if v.pattern ≠ "" then
        match re.matchString v.pattern str with
        | .error _ => some "invalid pattern"
        | .ok matched =>
          if matched then none else some "value does not match pattern"
      else none
    | _ => some "expected string"
  else if v.type = "choice" then
    match value with
    | .str str =>
      if v.choices.contains str then none
      else some "value is not a valid choice"
    | _ => some "expected string for choice"
  else if v.type = "number" then
    match value with
    | .int n =>
      if v.min ≠ 0 ∧ n < v.min then some "value is below minimum"
      else if v.max ≠ 0 ∧ n > v.max then some "value is above maximum"
      else none
    | _ => some "expected number"
  else if v.type = "boolean" then
    match value with
    | .bool _ => none
    | _ => some "expected boolean"
  else none

/-- `validateVariable` (lines 298-333): declaration-time validation. -/
def validateVariable (re : RegexOracle) (v : Variable) : Option String :=
  if ¬ (v.type = "string" ∨ v.type = "choice" ∨ v.type = "number" ∨ v.type = "boolean") then
    some "invalid variable type"
  else if v.type = "choice" ∧ v.choices = [] then
    some "choices required for choice type"
  else if v.type = "number" ∧ v.min ≠ 0 ∧ v.max ≠ 0 ∧ v.min > v.max then
    some "min cannot be greater than max"
  else if v.type = "string" ∧ v.pattern ≠ "" ∧ re.compileOk v.pattern = false then
    some "invalid pattern"
  else none

/-- `config.Config` — the fields the claims observe (metadata strings,
hooks and template settings are carried unchanged by the parser and are
omitted from the model). -/
structure Config where
  name : String
  vars : List (String × Variable)
  variableOrder : List String
  deriving DecidableEq, Repr

/-- Ascending insertion for `sort.Strings`. -/
def insertStr (s : String) : List String → List String
  | [] => [s]
  | x :: xs => if x < s then x :: insertStr s xs else s :: x :: xs

/-- `sort.Strings` (ascending). -/
def sortStrings : List String → List String
  | [] => []
  | x :: xs => insertStr x (sortStrings xs)

/-- `Config.GetVariableOrder` (lines 225-237): the order preserved from
parsing when nonempty, otherwise the map's keys sorted ascending. -/
def Config.GetVariableOrder (c : Config) : List String :=
  if c.variableOrder.length > 0 then c.variableOrder
  else sortStrings (c.vars.map Prod.fst)

/-- The keys of a mapping node (`valueNode.Kind == yaml.MappingNode` plus
the key-collecting loop); `none` for any other node kind. -/
def varKeysOf : YNode → Option (List String)
  | .mapping entries => some (entries.map Prod.fst)
  | _ => none

/-- The key-scanning loop of `extractVariableOrder`: the first root entry
whose key is `variables` *and* whose value is a mapping node contributes its
keys in source order; other entries are passed over. -/
def findVariablesOrder : List (String × YNode) → List String
  | [] => []
  | (k, v) :: rest =>
    if k = "variables" then
      match varKeysOf v with
      | some ks => ks
      | none => findVariablesOrder rest
    else findVariablesOrder rest

/-- `extractVariableOrder` (lines 336-366): document node, root mapping,
then the `variables` mapping's keys in order; anything else gives the empty
order. -/
def extractVariableOrder (doc : YDoc) : List String :=
  match doc.content with
  | [] => []
  | root :: _ =>
    match root with
    | .mapping entries => findVariablesOrder entries
    | _ => []

/-- Alias resolution performed by the decoder (not by the order extractor). -/
def resolveAlias : YNode → YNode
  | .aliasNode t => resolveAlias t
  | n => n

/-- Modelled from the spec: mapping-entry lookup performed by the yaml
decoder for a struct field. -/
def yLookup : List (String × YNode) → String → Option YNode
  | [], _ => none
  | (k0, v) :: rest, k => if k0 = k then some v else yLookup rest k

/-- Modelled from the spec: decode a scalar into a Go `string` field. -/
def decodeString (n : YNode) : Except String String :=
  match resolveAlias n with
  | .scalar (.s v) => .ok v
  | _ => .error "cannot unmarshal into string"

/-- Modelled from the spec: decode a scalar into a Go `int` field. -/
def decodeInt (n : YNode) : Except String Int :=
  match resolveAlias n with
  | .scalar (.i v) => .ok v
  | _ => .error "cannot unmarshal into int"

/-- Modelled from the spec: decode a sequence of scalars into `[]string`. -/
def decodeStringList (n : YNode) : Except String (List String) :=
  match resolveAlias n with
  | .sequence items => items.mapM decodeString
  | _ => .error "cannot unmarshal into []string"

/-- Modelled from the spec: decode a scalar into an `any` field (the model
restricts `default` values to scalars). -/
def decodeYVal (n : YNode) : Except String YVal :=
  match resolveAlias n with
  | .scalar v => .ok v
  | _ => .error "cannot unmarshal into any"

/-- Modelled from the spec: decode one variable declaration.  Unknown keys
are ignored (yaml.v3 default), duplicate keys are rejected (yaml.v3
behaviour), absent fields keep their zero values. -/
def decodeVariable (n : YNode) : Except String Variable :=
  match resolveAlias n with
  | .mapping entries =>
    if (entries.map Prod.fst).Nodup then do
      let type ← match yLookup entries "type" with
        | none => .ok "" | some v => decodeString v
      let prompt ← match yLookup entries "prompt" with
        | none => .ok "" | some v => decodeString v
      let dflt ← match yLookup entries "default" with
        | none => .ok none | some v => (decodeYVal v).map some
      let choices ← match yLookup entries "choices" with
        | none => .ok [] | some v => decodeStringList v
      let pattern ← match yLookup entries "pattern" with
        | none => .ok "" | some v => decodeString v
      let help ← match yLookup entries "help" with
        | none => .ok "" | some v => decodeString v
      let mn ← match yLookup entries "min" with
        | none => .ok 0 | some v => decodeInt v
      let mx ← match yLookup entries "max" with
        | none => .ok 0 | some v => decodeInt v
      .ok ⟨type, prompt, dflt, choices, pattern, help, mn, mx⟩
    else .error "mapping key already defined"
  | _ => .error "cannot unmarshal into Variable"

/-- Modelled from the spec: the root mapping entries of the document (an
empty document decodes into the zero config). -/
def rootEntries (doc : YDoc) : Except String (List (String × YNode)) :=
  match doc.content with
  | [] => .ok []
  | root :: _ =>
    match resolveAlias root with
    | .mapping es =>
      if (es.map Prod.fst).Nodup then .ok es
      else .error "mapping key already defined"
    | _ => .error "cannot unmarshal into Config"

/-- Modelled from the spec: decode the `variables` mapping into the
variables association (yaml.v3 rejects duplicate keys). -/
def parseVariables (entries : List (String × YNode)) :
    Except String (List (String × Variable)) :=
  match yLookup entries "variables" with
  | none => .ok []
  | some v =>
    match resolveAlias v with
    | .mapping ves =>
      if (ves.map Prod.fst).Nodup then
        ves.mapM (fun p => (decodeVariable p.2).map (fun dv => (p.1, dv)))
      else .error "mapping key already defined"
    | _ => .error "cannot unmarshal into map"

/-- `ParseCutrYAML` (lines 188-222) over the node-tree model: unmarshal the
config, extract the variable order from the same document, require a
nonempty `name`, and run declaration validation on every variable. -/
def parseCutrYAML (re : RegexOracle) (doc : YDoc) : Except String Config :=
  match rootEntries doc with
  | .error e => .error e
  | .ok entries =>
    match (match yLookup entries "name" with
            | none => Except.ok "" | some v => decodeString v) with
    | .error e => .error e
    | .ok name =>
      match parseVariables entries with
      | .error e => .error e
      | .ok vars =>
        if name = "" then .error "name is required"
        else
          match vars.findSome? (fun p => validateVariable re p.2) with
          | some e => .error e
          | none => .ok ⟨name, vars, extractVariableOrder doc⟩

/-- Observer: the render result failed with the strict missing-key
execution error (as opposed to succeeding or failing at parse time). -/
def missingKeyFailure {α : Type} : Except TErr α → Bool
  | .error (.missingKey _) => true
  | _ => false

/-- Observer: a walk error that is the missing-key failure of a file body
(`render template: %w`). -/
def fileMissingKeyErr : Option WalkErr → Bool
  | some (.renderFileErr (.missingKey _)) => true
  | _ => false

/-- Observer: a walk error that is the missing-key failure of a path
segment (`render path %q: %w`). -/
def pathMissingKeyErr : Option WalkErr → Bool
  | some (.renderPathErr _ (.missingKey _)) => true
  | _ => false

/-- Observer: a hook command that failed at render time — no subprocess was
launched and the error is the `render hook command` wrap. -/
def hookRenderFailed : Option (List Nat) × Option (List Nat) → Bool
  | (none, some e) => (sb "render hook command: ").isPrefixOf e
  | _ => false

/-! ## Spec-side path renderer (written from the words of the claim, for
the C3 refinement: split into segments, render each against the values,
trim surrounding whitespace, drop segments that render to the empty string,
rejoin). -/

/-- Spec-side per-segment loop: render the segment as written (no
pre-trim), trim the result, drop it when empty. -/
def renderSegsSpec (vals : Values) : List (List Nat) → Except TErr (List (List Nat))
  | [] => .ok []
  | s :: ss =>
    match renderTemplate rendererFuncs s vals with
    | .error e => .error e
    | .ok r =>
      let r2 := trimSpaceB r
      if r2 = [] then renderSegsSpec vals ss
      else (renderSegsSpec vals ss).map (r2 :: ·)

/-- Spec-side `renderPath`. -/
def renderPathSpec (rel : List Nat) (vals : Values) : Except TErr (List Nat) :=
  (renderSegsSpec vals (splitOnSlash rel)).map joinSegs

/-- Prepend a list of literal bytes to a node list, merging into a leading
text node (iterated `consText`). -/
def consTextL (ws : List Nat) (ns : List TNode) : List TNode :=
  ws.foldr consText ns

/-- Append literal bytes at the end of a node list, merging them into a
trailing text node: the shape `parseScan` produces for `m ++ ws`. -/
def nsAppendWs (ws : List Nat) : List TNode → List TNode
  | [] => [.text ws]
  | [.text s] => [.text (s ++ ws)]
  | n :: rest => n :: nsAppendWs ws rest

/-! ## Source-tree presentations (for C8)

Two runs of the renderer read the same source directory, but the operating
system may enumerate directory entries in different orders; `WalkDir`
normalizes by sorting.  A run's input is modelled as a presentation of the
source tree: the same entries with each directory's children in an
arbitrary order.  Real directories cannot contain two entries with the same
name, which `nodupNamesT` captures. -/

mutual

/-- No directory of the tree has two children with the same name. -/
def nodupNamesT : FsTree → Bool
  | .file _ _ _ => true
  | .dir _ cs => nodupNamesL cs

/-- The sibling list has pairwise distinct names and well-formed members. -/
def nodupNamesL : List FsTree → Bool
  | [] => true
  | t :: ts =>
    !decide (FsTree.name t ∈ ts.map FsTree.name) && nodupNamesT t && nodupNamesL ts

end

mutual

/-- Two trees present the same source: equal files, and directories with the
same name whose children agree up to reordering and recursive
presentation. -/
inductive TPerm : FsTree → FsTree → Prop where
  | file (n c : List Nat) (m : Nat) : TPerm (.file n c m) (.file n c m)
  | dir (n : List Nat) {cs ds : List FsTree} : LPerm cs ds →
      TPerm (.dir n cs) (.dir n ds)

/-- Sibling lists up to permutation and recursive reordering. -/
inductive LPerm : List FsTree → List FsTree → Prop where
  | nil : LPerm [] []
  | cons {t u : FsTree} {ts us : List FsTree} :
      TPerm t u → LPerm ts us → LPerm (t :: ts) (u :: us)
  | swap {a b c d : FsTree} {ts us : List FsTree} :
      TPerm a c → TPerm b d → LPerm ts us → LPerm (a :: b :: ts) (d :: c :: us)
  | trans {ts us vs : List FsTree} : LPerm ts us → LPerm us vs → LPerm ts vs

end

/-! ## Theorems -/

namespace KickProofs
open Kick

theorem utf8Tail1_shape {lo hi : Nat} {rest : List Nat}
    (h : utf8Tail1 lo hi rest = true) :
    ∃ c1 r, rest = c1 :: r ∧ lo ≤ c1 ∧ c1 ≤ hi ∧ utf8Valid r = true := by
  match rest with
  | [] => rw [utf8Tail1] at h; cases h
  | c1 :: r =>
    rw [utf8Tail1] at h
    simp only [Bool.and_eq_true, decide_eq_true_eq] at h
    exact ⟨c1, r, rfl, h.1.1, h.1.2, h.2⟩

theorem utf8Tail2_shape {lo hi : Nat} {rest : List Nat}
    (h : utf8Tail2 lo hi rest = true) :
    ∃ c1 c2 r, rest = c1 :: c2 :: r ∧ lo ≤ c1 ∧ c1 ≤ hi ∧
      0x80 ≤ c2 ∧ c2 ≤ 0xBF ∧ utf8Valid r = true := by
  match rest with
  | [] => rw [utf8Tail2] at h; cases h
  | c1 :: r =>
    rw [utf8Tail2] at h
    simp only [Bool.and_eq_true, decide_eq_true_eq] at h
    obtain ⟨c2, r2, rfl, h80, hbf, hv⟩ := utf8Tail1_shape h.2
    exact ⟨c1, c2, r2, rfl, h.1.1, h.1.2, h80, hbf, hv⟩

theorem utf8Tail3_shape {lo hi : Nat} {rest : List Nat}
    (h : utf8Tail3 lo hi rest = true) :
    ∃ c1 c2 c3 r, rest = c1 :: c2 :: c3 :: r ∧ lo ≤ c1 ∧ c1 ≤ hi ∧
      0x80 ≤ c2 ∧ c2 ≤ 0xBF ∧ 0x80 ≤ c3 ∧ c3 ≤ 0xBF ∧ utf8Valid r = true := by
  match rest with
  | [] => rw [utf8Tail3] at h; cases h
  | c1 :: r =>
    rw [utf8Tail3] at h
    simp only [Bool.and_eq_true, decide_eq_true_eq] at h
    obtain ⟨c2, c3, r3, rfl, a1, a2, a3, a4, hv⟩ := utf8Tail2_shape h.2
    exact ⟨c1, c2, c3, r3, rfl, h.1.1, h.1.2, a1, a2, a3, a4, hv⟩

theorem utf8Chunks_of_valid : ∀ l : List Nat, utf8Valid l = true → Utf8Chunks l
  | [], _ => .nil
  | b :: rest, h => by
    rw [utf8Valid] at h
    by_cases hb : b ≤ 0x7F
    · rw [if_pos hb] at h
      exact .cons [b] rest (.ascii b hb) (utf8Chunks_of_valid rest h)
    · rw [if_neg hb] at h
      by_cases h2 : (0xC2 ≤ b && b ≤ 0xDF) = true
      · rw [if_pos h2] at h
        simp only [Bool.and_eq_true, decide_eq_true_eq] at h2
        obtain ⟨c1, r, rfl, a1, a2, hv⟩ := utf8Tail1_shape h
        exact .cons [b, c1] r (.two b c1 h2.1 h2.2 a1 a2)
          (utf8Chunks_of_valid r hv)
      · rw [if_neg h2] at h
        by_cases h3 : (b == 0xE0) = true
        · rw [if_pos h3] at h
          obtain ⟨c1, c2, r, rfl, a1, a2, a3, a4, hv⟩ := utf8Tail2_shape h
          rw [beq_iff_eq] at h3; subst h3
          exact .cons [0xE0, c1, c2] r (.threeE0 c1 c2 a1 a2 a3 a4)
            (utf8Chunks_of_valid r hv)
        · rw [if_neg h3] at h
          by_cases h4 : ((0xE1 ≤ b && b ≤ 0xEC) || b == 0xEE || b == 0xEF) = true
          · rw [if_pos h4] at h
            obtain ⟨c1, c2, r, rfl, a1, a2, a3, a4, hv⟩ := utf8Tail2_shape h
            simp only [Bool.or_eq_true, Bool.and_eq_true, decide_eq_true_eq,
              beq_iff_eq] at h4
            exact .cons [b, c1, c2] r
              (.threeMid b c1 c2 (by tauto) a1 a2 a3 a4)
              (utf8Chunks_of_valid r hv)
          · rw [if_neg h4] at h
            by_cases h5 : (b == 0xED) = true
            · rw [if_pos h5] at h
              obtain ⟨c1, c2, r, rfl, a1, a2, a3, a4, hv⟩ := utf8Tail2_shape h
              rw [beq_iff_eq] at h5; subst h5
              exact .cons [0xED, c1, c2] r (.threeED c1 c2 a1 a2 a3 a4)
                (utf8Chunks_of_valid r hv)
            · rw [if_neg h5] at h
              by_cases h6 : (b == 0xF0) = true
              · rw [if_pos h6] at h
                obtain ⟨c1, c2, c3, r, rfl, a1, a2, a3, a4, a5, a6, hv⟩ :=
                  utf8Tail3_shape h
                rw [beq_iff_eq] at h6; subst h6
                exact .cons [0xF0, c1, c2, c3] r
                  (.fourF0 c1 c2 c3 a1 a2 a3 a4 a5 a6)
                  (utf8Chunks_of_valid r hv)
              · rw [if_neg h6] at h
                by_cases h7 : (0xF1 ≤ b && b ≤ 0xF3) = true
                · rw [if_pos h7] at h
                  obtain ⟨c1, c2, c3, r, rfl, a1, a2, a3, a4, a5, a6, hv⟩ :=
                    utf8Tail3_shape h
                  simp only [Bool.and_eq_true, decide_eq_true_eq] at h7
                  exact .cons [b, c1, c2, c3] r
                    (.fourMid b c1 c2 c3 h7.1 h7.2 a1 a2 a3 a4 a5 a6)
                    (utf8Chunks_of_valid r hv)
                · rw [if_neg h7] at h
                  by_cases h8 : (b == 0xF4) = true
                  · rw [if_pos h8] at h
                    obtain ⟨c1, c2, c3, r, rfl, a1, a2, a3, a4, a5, a6, hv⟩ :=
                      utf8Tail3_shape h
                    rw [beq_iff_eq] at h8; subst h8
                    exact .cons [0xF4, c1, c2, c3] r
                      (.fourF4 c1 c2 c3 a1 a2 a3 a4 a5 a6)
                      (utf8Chunks_of_valid r hv)
                  · rw [if_neg h8] at h
                    cases h

theorem utf8Valid_of_chunks : ∀ {l : List Nat}, Utf8Chunks l → utf8Valid l = true := by
  intro l h
  induction h with
  | nil => rfl
  | cons r l hr _ ih =>
    cases hr with
    | ascii b hb =>
      show utf8Valid (b :: l) = true
      rw [utf8Valid, if_pos hb]; exact ih
    | two b c1 hb1 hb2 h1 h2 =>
      show utf8Valid (b :: c1 :: l) = true
      rw [utf8Valid, if_neg (by omega),
        if_pos (by simp only [Bool.and_eq_true, decide_eq_true_eq]; omega),
        utf8Tail1]
      simp only [Bool.and_eq_true, decide_eq_true_eq]
      exact ⟨⟨h1, h2⟩, ih⟩
    | threeE0 c1 c2 a1 a2 a3 a4 =>
      show utf8Valid (0xE0 :: c1 :: c2 :: l) = true
      rw [utf8Valid, if_neg (by omega),
        if_neg (by simp only [Bool.and_eq_true, decide_eq_true_eq]; omega),
        if_pos (by decide), utf8Tail2, utf8Tail1]
      simp only [Bool.and_eq_true, decide_eq_true_eq]
      exact ⟨⟨a1, a2⟩, ⟨a3, a4⟩, ih⟩
    | threeMid b c1 c2 hb a1 a2 a3 a4 =>
      show utf8Valid (b :: c1 :: c2 :: l) = true
      have hb1 : ¬ b ≤ 0x7F := by rcases hb with ⟨h, _⟩ | h | h <;> omega
      have hb2 : ¬ (0xC2 ≤ b && b ≤ 0xDF) = true := by
        simp only [Bool.and_eq_true, decide_eq_true_eq]
        rcases hb with ⟨h, h2⟩ | h | h <;> omega
      have hb3 : ¬ (b == 0xE0) = true := by
        simp only [beq_iff_eq]
        rcases hb with ⟨h, h2⟩ | h | h <;> omega
      have hb4 : ((0xE1 ≤ b && b ≤ 0xEC) || b == 0xEE || b == 0xEF) = true := by
        simp only [Bool.or_eq_true, Bool.and_eq_true, decide_eq_true_eq, beq_iff_eq]
        tauto
      rw [utf8Valid, if_neg hb1, if_neg hb2, if_neg hb3, if_pos hb4,
        utf8Tail2, utf8Tail1]
      simp only [Bool.and_eq_true, decide_eq_true_eq]
      exact ⟨⟨a1, a2⟩, ⟨a3, a4⟩, ih⟩
    | threeED c1 c2 a1 a2 a3 a4 =>
      show utf8Valid (0xED :: c1 :: c2 :: l) = true
      rw [utf8Valid, if_neg (by omega),
        if_neg (by simp only [Bool.and_eq_true, decide_eq_true_eq]; omega),
        if_neg (by decide), if_neg (by decide), if_pos (by decide),
        utf8Tail2, utf8Tail1]
      simp only [Bool.and_eq_true, decide_eq_true_eq]
      exact ⟨⟨a1, a2⟩, ⟨a3, a4⟩, ih⟩
    | fourF0 c1 c2 c3 a1 a2 a3 a4 a5 a6 =>
      show utf8Valid (0xF0 :: c1 :: c2 :: c3 :: l) = true
      rw [utf8Valid, if_neg (by omega),
        if_neg (by simp only [Bool.and_eq_true, decide_eq_true_eq]; omega),
        if_neg (by decide), if_neg (by decide), if_neg (by decide),
        if_pos (by decide), utf8Tail3, utf8Tail2, utf8Tail1]
      simp only [Bool.and_eq_true, decide_eq_true_eq]
      exact ⟨⟨a1, a2⟩, ⟨a3, a4⟩, ⟨a5, a6⟩, ih⟩
    | fourMid b c1 c2 c3 hb1 hb2 a1 a2 a3 a4 a5 a6 =>
      show utf8Valid (b :: c1 :: c2 :: c3 :: l) = true
      rw [utf8Valid, if_neg (by omega),
        if_neg (by simp only [Bool.and_eq_true, decide_eq_true_eq]; omega),
        if_neg (by simp only [beq_iff_eq]; omega),
        if_neg (by simp only [Bool.or_eq_true, Bool.and_eq_true,
          decide_eq_true_eq, beq_iff_eq]; omega),
        if_neg (by simp only [beq_iff_eq]; omega),
        if_neg (by simp only [beq_iff_eq]; omega),
        if_pos (by simp only [Bool.and_eq_true, decide_eq_true_eq]; omega),
        utf8Tail3, utf8Tail2, utf8Tail1]
      simp only [Bool.and_eq_true, decide_eq_true_eq]
      exact ⟨⟨a1, a2⟩, ⟨a3, a4⟩, ⟨a5, a6⟩, ih⟩
    | fourF4 c1 c2 c3 a1 a2 a3 a4 a5 a6 =>
      show utf8Valid (0xF4 :: c1 :: c2 :: c3 :: l) = true
      rw [utf8Valid, if_neg (by omega),
        if_neg (by simp only [Bool.and_eq_true, decide_eq_true_eq]; omega),
        if_neg (by decide), if_neg (by decide), if_neg (by decide),
        if_neg (by decide), if_neg (by decide), if_pos (by decide),
        utf8Tail3, utf8Tail2, utf8Tail1]
      simp only [Bool.and_eq_true, decide_eq_true_eq]
      exact ⟨⟨a1, a2⟩, ⟨a3, a4⟩, ⟨a5, a6⟩, ih⟩

/-- C2: the binary/text classifier inspects only the first min(length, 1024)
bytes; it reports binary if that sample contains a null byte, otherwise text
if the sample is valid UTF-8, otherwise binary iff strictly more than 30% of
the sample's bytes lie outside printable ASCII plus tab/LF/CR. -/
theorem isBinary_spec (data : List Nat) :
    isBinary data = isBinary (data.take 1024) ∧
    (isBinary data = true ↔
      0 ∈ data.take 1024 ∨
      (¬ Utf8Chunks (data.take 1024) ∧
        3 * (data.take 1024).length <
          10 * (data.take 1024).countP
            (fun b => decide (¬ (0x20 ≤ b ∧ b ≤ 0x7E ∨ b = 9 ∨ b = 10 ∨ b = 13))))) := by
  constructor
  · show isBinary data = isBinary (data.take 1024)
    unfold isBinary
    rw [List.take_take]
    norm_num
  · unfold isBinary
    simp only []
    by_cases hc : (data.take 1024).contains 0
    · rw [if_pos hc]
      simp only [true_iff]
      left
      exact List.elem_iff.mp hc
    · rw [if_neg hc]
      have hnc : ¬ (0 ∈ data.take 1024) := fun hm => hc (List.elem_iff.mpr hm)
      by_cases hv : utf8Valid (data.take 1024) = true
      · rw [if_pos hv]
        simp only [Bool.false_eq_true, false_iff]
        rintro (hm | ⟨hch, _⟩)
        · exact hnc hm
        · exact hch (utf8Chunks_of_valid _ hv)
      · rw [if_neg hv]
        have hnn : data.take 1024 ≠ [] := by
          intro he; rw [he] at hv; exact hv rfl
        have hlen : 0 < (data.take 1024).length := List.length_pos.mpr hnn
        have hcount :
            (data.take 1024).countP (fun b => !isPrintableOrWhitespace b) =
            (data.take 1024).countP
              (fun b => decide (¬ (0x20 ≤ b ∧ b ≤ 0x7E ∨ b = 9 ∨ b = 10 ∨ b = 13))) := by
          apply List.countP_congr
          intro b _
          cases hb : isPrintableOrWhitespace b with
          | false =>
            have hb3 : ¬ isPrintableOrWhitespace b = true := by simp [hb]
            simp only [isPrintableOrWhitespace, Bool.or_eq_true, Bool.and_eq_true,
              decide_eq_true_eq, beq_iff_eq] at hb3
            simp only [Bool.not_false, true_iff, decide_eq_true_eq]
            omega
          | true =>
            simp only [isPrintableOrWhitespace, Bool.or_eq_true, Bool.and_eq_true,
              decide_eq_true_eq, beq_iff_eq] at hb
            simp only [Bool.not_true, Bool.false_eq_true, false_iff,
              decide_eq_true_eq, not_not]
            omega
        rw [hcount]
        constructor
        · intro h
          right
          refine ⟨fun hch => hv (utf8Valid_of_chunks hch), ?_⟩
          have h2 := of_decide_eq_true h
          rw [gt_iff_lt, div_lt_div_iff₀ (by norm_num) (by exact_mod_cast hlen)] at h2
          have h3 : (3 * (data.take 1024).length : ℚ) <
              10 * (data.take 1024).countP
                (fun b => decide (¬ (0x20 ≤ b ∧ b ≤ 0x7E ∨ b = 9 ∨ b = 10 ∨ b = 13))) := by
            linarith
          exact_mod_cast h3
        · rintro (hm | ⟨_, hlt⟩)
          · exact absurd hm hnc
          · apply decide_eq_true
            rw [gt_iff_lt, div_lt_div_iff₀ (by norm_num) (by exact_mod_cast hlen)]
            have h3 : (3 * (data.take 1024).length : ℚ) <
                (data.take 1024).countP
                  (fun b => decide (¬ (0x20 ≤ b ∧ b ≤ 0x7E ∨ b = 9 ∨ b = 10 ∨ b = 13))) * 10 := by
              have h4 : (3 * (data.take 1024).length : ℚ) <
                  10 * (data.take 1024).countP
                    (fun b => decide (¬ (0x20 ≤ b ∧ b ≤ 0x7E ∨ b = 9 ∨ b = 10 ∨ b = 13))) := by
                exact_mod_cast hlt
              linarith
            exact h3


theorem isUpperB_false_iff (b : Nat) : isUpperB b = false ↔ ¬ (65 ≤ b ∧ b ≤ 90) := by
  simp [isUpperB]

theorem toLowerB_eq (b : Nat) :
    toLowerB b = if 65 ≤ b ∧ b ≤ 90 then b + 32 else b := by
  simp only [toLowerB, isUpperB, Bool.and_eq_true, decide_eq_true_eq]

theorem toLowerB_good (a : Nat) (h32 : a ≠ 32) (h45 : a ≠ 45) :
    isUpperB (toLowerB a) = false ∧ toLowerB a ≠ 32 ∧ toLowerB a ≠ 45 := by
  rw [toLowerB_eq]
  split
  · refine ⟨?_, by omega, by omega⟩
    rw [isUpperB_false_iff]; omega
  · refine ⟨?_, h32, h45⟩
    rw [isUpperB_false_iff]; omega

theorem snakeCore_mem {b : Nat} :
    ∀ (first : Bool) (s : List Nat), b ∈ snakeCore first s →
      isUpperB b = false ∧ b ≠ 32 ∧ b ≠ 45 := by
  intro first s
  induction s generalizing first with
  | nil => intro h; rw [snakeCore] at h; cases h
  | cons a r ih =>
    intro h
    rw [snakeCore] at h
    by_cases h1 : (a == 32 || a == 45) = true
    · rw [if_pos h1] at h
      simp only [List.mem_cons] at h
      rcases h with rfl | h
      · exact ⟨rfl, by omega, by omega⟩
      · exact ih false h
    · rw [if_neg h1] at h
      have ha : a ≠ 32 ∧ a ≠ 45 := by
        simp only [Bool.or_eq_true, beq_iff_eq] at h1
        omega
      split at h
      · simp only [List.mem_cons] at h
        rcases h with rfl | rfl | h
        · exact ⟨rfl, by omega, by omega⟩
        · exact toLowerB_good a ha.1 ha.2
        · exact ih false h
      · simp only [List.mem_cons] at h
        rcases h with rfl | h
        · exact toLowerB_good a ha.1 ha.2
        · exact ih false h

theorem replaceDoubleUnderscore_mem {b : Nat} :
    ∀ l : List Nat, b ∈ replaceDoubleUnderscore l → b ∈ l := by
  intro l
  induction l using replaceDoubleUnderscore.induct with
  | case1 => intro h; rw [replaceDoubleUnderscore] at h; cases h
  | case2 c => intro h; rw [replaceDoubleUnderscore] at h; exact h
  | case3 x y rest hxy ih =>
    intro h
    rw [replaceDoubleUnderscore, if_pos hxy] at h
    simp only [List.mem_cons] at h ⊢
    rcases h with rfl | h
    · exact Or.inl hxy.1.symm
    · exact Or.inr (Or.inr (ih h))
  | case4 x y rest hxy ih =>
    intro h
    rw [replaceDoubleUnderscore, if_neg hxy] at h
    simp only [List.mem_cons] at h ⊢
    rcases h with rfl | h
    · exact Or.inl rfl
    · have h2 := ih h
      simp only [List.mem_cons] at h2
      tauto

theorem trimUnderscore_mem {b : Nat} {l : List Nat}
    (h : b ∈ trimUnderscore l) : b ∈ l := by
  unfold trimUnderscore at h
  rw [List.mem_reverse] at h
  have h2 := (List.dropWhile_sublist (· == 95)).mem h
  rw [List.mem_reverse] at h2
  exact (List.dropWhile_sublist (· == 95)).mem h2

theorem head_dropWhile_ne {p : Nat → Bool} :
    ∀ {l : List Nat} {a : Nat}, (l.dropWhile p).head? = some a → p a = false := by
  intro l
  induction l with
  | nil => intro a h; simp [List.dropWhile] at h
  | cons x r ih =>
    intro a h
    rw [List.dropWhile] at h
    by_cases hp : p x = true
    · rw [hp] at h
      exact ih h
    · rw [Bool.not_eq_true] at hp
      rw [hp] at h
      simp only [List.head?_cons, Option.some.injEq] at h
      subst h
      exact hp

theorem prefix_head_eq {l1 l2 : List Nat} {a : Nat}
    (hp : l1 <+: l2) (h : l1.head? = some a) : l2.head? = some a := by
  obtain ⟨t, rfl⟩ := hp
  cases l1 with
  | nil => cases h
  | cons x r => simpa using h

theorem trimUnderscore_head {l : List Nat} :
    (trimUnderscore l).head? ≠ some 95 := by
  intro h
  unfold trimUnderscore at h
  set m := l.dropWhile (· == 95) with hm
  have hpre : ((m.reverse.dropWhile (· == 95)).reverse) <+: m := by
    have h1 : m.reverse.dropWhile (· == 95) <:+ m.reverse := List.dropWhile_suffix _
    have h2 := List.reverse_prefix.mpr h1
    rwa [List.reverse_reverse] at h2
  have h3 : m.head? = some 95 := prefix_head_eq hpre h
  have h4 := head_dropWhile_ne (p := (· == 95)) h3
  simp at h4

theorem trimUnderscore_getLast {l : List Nat} :
    (trimUnderscore l).getLast? ≠ some 95 := by
  intro h
  unfold trimUnderscore at h
  rw [List.getLast?_reverse] at h
  have h4 := head_dropWhile_ne (p := (· == 95)) h
  simp at h4

/-- C7 (amended). -/
theorem claim_C7_toSnakeCase_amended (s : List Nat) :
    (∀ b ∈ toSnakeCase s, isUpperB b = false ∧ b ≠ 32 ∧ b ≠ 45) ∧
    (toSnakeCase s).head? ≠ some 95 ∧
    (toSnakeCase s).getLast? ≠ some 95 := by
  refine ⟨?_, trimUnderscore_head, trimUnderscore_getLast⟩
  intro b hb
  have h1 := trimUnderscore_mem hb
  have h2 := replaceDoubleUnderscore_mem _ h1
  exact snakeCore_mem _ _ h2

/-- C7 counterexample. -/
theorem claim_C7_counterexample :
    toSnakeCase (sb "a    b") = sb "a__b" ∧
    [95, 95].IsInfix (toSnakeCase (sb "a    b")) := by
  constructor
  · decide
  · decide

/-- C7 witness. -/
theorem claim_C7_witness :
    isUpperB 104 = false ∧ (104 : Nat) ≠ 32 ∧ (104 : Nat) ≠ 45 :=
  (claim_C7_toSnakeCase_amended (sb "Hello-World")).1 104 (by decide)


theorem insertStr_perm (s : String) (l : List String) :
    (insertStr s l).Perm (s :: l) := by
  induction l with
  | nil => exact List.Perm.refl _
  | cons x xs ih =>
    rw [insertStr]
    split
    · exact ((ih.cons x).trans (List.Perm.swap s x xs))
    · exact List.Perm.refl _

theorem sortStrings_perm (l : List String) : (sortStrings l).Perm l := by
  induction l with
  | nil => exact List.Perm.refl _
  | cons x xs ih =>
    rw [sortStrings]
    exact (insertStr_perm x (sortStrings xs)).trans (ih.cons x)

theorem findVariablesOrder_of_notMem (entries : List (String × YNode))
    (h : "variables" ∉ entries.map Prod.fst) :
    findVariablesOrder entries = [] := by
  induction entries with
  | nil => rfl
  | cons e rest ih =>
    obtain ⟨k, v⟩ := e
    simp only [List.map_cons, List.mem_cons] at h
    push_neg at h
    rw [findVariablesOrder, if_neg (fun hk => h.1 hk.symm)]
    exact ih h.2

theorem yLookup_of_notMem (entries : List (String × YNode)) (k : String)
    (h : k ∉ entries.map Prod.fst) : yLookup entries k = none := by
  induction entries with
  | nil => rfl
  | cons e rest ih =>
    obtain ⟨k0, v⟩ := e
    simp only [List.map_cons, List.mem_cons] at h
    push_neg at h
    rw [yLookup, if_neg (fun hk => h.1 hk.symm)]
    exact ih h.2

theorem findVariablesOrder_eq (entries : List (String × YNode))
    (hn : (entries.map Prod.fst).Nodup) :
    findVariablesOrder entries =
      ((yLookup entries "variables").bind varKeysOf).getD [] := by
  induction entries with
  | nil => rfl
  | cons e rest ih =>
    obtain ⟨k, v⟩ := e
    simp only [List.map_cons, List.nodup_cons] at hn
    by_cases hk : k = "variables"
    · subst hk
      rw [findVariablesOrder, if_pos rfl, yLookup, if_pos rfl]
      rw [Option.some_bind]
      cases hv : varKeysOf v with
      | some ks => simp [hv]
      | none =>
        simp only [Option.getD_none]
        exact findVariablesOrder_of_notMem rest hn.1
    · rw [findVariablesOrder, if_neg hk, yLookup, if_neg hk]
      exact ih hn.2

theorem mapM_decode_keys (ves : List (String × YNode))
    (vars : List (String × Variable))
    (h : ves.mapM (fun p => (decodeVariable p.2).map (fun dv => (p.1, dv))) =
      .ok vars) :
    vars.map Prod.fst = ves.map Prod.fst := by
  induction ves generalizing vars with
  | nil =>
    simp only [List.mapM_nil, pure, Except.pure] at h
    cases h
    rfl
  | cons e rest ih =>
    obtain ⟨k, v⟩ := e
    rw [List.mapM_cons] at h
    cases hd : decodeVariable v with
    | error err =>
      rw [hd] at h
      simp [Except.map, bind, Except.bind] at h
    | ok dv =>
      rw [hd] at h
      cases hr : rest.mapM (fun p => (decodeVariable p.2).map (fun dv => (p.1, dv))) with
      | error err =>
        rw [hr] at h
        simp [Except.map, bind, Except.bind, pure, Except.pure] at h
      | ok tl =>
        rw [hr] at h
        simp only [Except.map, bind, Except.bind, pure, Except.pure, Except.ok.injEq] at h
        subst h
        simp only [List.map_cons, List.cons.injEq]
        exact ⟨trivial, ih tl hr⟩

/-- C4. -/
theorem claim_C4_variable_order (re : RegexOracle) (doc : YDoc) (cfg : Config)
    (h : parseCutrYAML re doc = .ok cfg) :
    cfg.GetVariableOrder.Perm (cfg.vars.map Prod.fst) ∧
    cfg.GetVariableOrder.length = cfg.vars.length ∧
    (extractVariableOrder doc ≠ [] →
      cfg.GetVariableOrder = extractVariableOrder doc) ∧
    (extractVariableOrder doc = [] →
      cfg.GetVariableOrder = sortStrings (cfg.vars.map Prod.fst)) := by
  unfold parseCutrYAML at h
  split at h
  · exact Except.noConfusion h
  rename_i entries hroot
  split at h
  · exact Except.noConfusion h
  rename_i name hname
  split at h
  · exact Except.noConfusion h
  rename_i vars hvars
  split at h
  · exact Except.noConfusion h
  split at h
  · exact Except.noConfusion h
  rename_i hn hval
  simp only [Except.ok.injEq] at h
  subst h
  have key : extractVariableOrder doc ≠ [] →
      extractVariableOrder doc = vars.map Prod.fst := by
    intro hne
    unfold extractVariableOrder at hne ⊢
    cases hc : doc.content with
    | nil => rw [hc] at hne; exact (hne rfl).elim
    | cons root rest =>
      rw [hc] at hne
      cases root with
      | scalar v => exact absurd rfl hne
      | sequence items => exact absurd rfl hne
      | aliasNode t => exact absurd rfl hne
      | mapping es =>
        unfold rootEntries at hroot
        rw [hc] at hroot
        have hroot2 : (if (es.map Prod.fst).Nodup then Except.ok es
            else (Except.error "mapping key already defined" :
              Except String (List (String × YNode)))) = Except.ok entries := hroot
        have hne2 : findVariablesOrder es ≠ [] := hne
        show findVariablesOrder es = vars.map Prod.fst
        by_cases hnd : (es.map Prod.fst).Nodup
        · rw [if_pos hnd] at hroot2
          simp only [Except.ok.injEq] at hroot2
          subst hroot2
          rw [findVariablesOrder_eq es hnd] at hne2 ⊢
          unfold parseVariables at hvars
          cases hy : yLookup es "variables" with
          | none => rw [hy] at hne2; exact absurd rfl hne2
          | some v =>
            rw [hy] at hvars hne2
            rw [Option.some_bind] at hne2 ⊢
            cases v with
            | scalar w => exact absurd rfl hne2
            | sequence items => exact absurd rfl hne2
            | aliasNode t => exact absurd rfl hne2
            | mapping ves =>
              have hvars2 : (if (ves.map Prod.fst).Nodup then
                  ves.mapM (fun p => (decodeVariable p.2).map (fun dv => (p.1, dv)))
                  else (Except.error "mapping key already defined" :
                    Except String (List (String × Variable)))) = Except.ok vars := hvars
              by_cases hnd2 : (ves.map Prod.fst).Nodup
              · rw [if_pos hnd2] at hvars2
                have hkeys := mapM_decode_keys ves vars hvars2
                simp only [varKeysOf, Option.getD_some]
                exact hkeys.symm
              · rw [if_neg hnd2] at hvars2
                exact Except.noConfusion hvars2
        · rw [if_neg hnd] at hroot2
          exact Except.noConfusion hroot2
  by_cases hne : extractVariableOrder doc = []
  · have hgvo : Config.GetVariableOrder ⟨name, vars, extractVariableOrder doc⟩ =
        sortStrings (vars.map Prod.fst) := by
      unfold Config.GetVariableOrder
      rw [hne]
      rfl
    refine ⟨?_, ?_, fun hc => absurd hne hc, fun _ => hgvo⟩
    · rw [hgvo]; exact sortStrings_perm _
    · rw [hgvo]
      have := (sortStrings_perm (vars.map Prod.fst)).length_eq
      simpa using this
  · have hkeq := key hne
    have hgvo : Config.GetVariableOrder ⟨name, vars, extractVariableOrder doc⟩ =
        extractVariableOrder doc := by
      unfold Config.GetVariableOrder
      simp only
      rw [if_pos]
      have := List.length_pos.mpr hne
      omega
    refine ⟨?_, ?_, fun _ => hgvo, fun hc => absurd hc hne⟩
    · rw [hgvo, hkeq]
    · rw [hgvo, hkeq]; simp

/-- C4 witness: a two-variable document declared in the order `b`, `a`. -/
theorem claim_C4_witness :
    Config.GetVariableOrder
      ⟨"t",
       [("b", ⟨"string", "", none, [], "", "", 0, 0⟩),
        ("a", ⟨"string", "", none, [], "", "", 0, 0⟩)],
       ["b", "a"]⟩ = ["b", "a"] := by
  have h := claim_C4_variable_order ⟨fun _ _ => .ok true, fun _ => true⟩
    ⟨[.mapping [("name", .scalar (.s "t")),
       ("variables", .mapping
         [("b", .mapping [("type", .scalar (.s "string"))]),
          ("a", .mapping [("type", .scalar (.s "string"))])])]]⟩
    ⟨"t",
     [("b", ⟨"string", "", none, [], "", "", 0, 0⟩),
      ("a", ⟨"string", "", none, [], "", "", 0, 0⟩)],
     ["b", "a"]⟩
    (by decide)
  exact h.2.2.1 (by decide)

/-- C10: for a variable whose declared type is none of string, choice,
number, boolean, per-value validation returns no error for every value;
the unknown kind is rejected by declaration-time validation instead. -/
theorem claim_C10_unknown_type (re : RegexOracle) (v : Variable) (value : VValue)
    (h : ¬ (v.type = "string" ∨ v.type = "choice" ∨ v.type = "number" ∨
      v.type = "boolean")) :
    v.Validate re value = none ∧
    validateVariable re v = some "invalid variable type" := by
  push_neg at h
  obtain ⟨h1, h2, h3, h4⟩ := h
  constructor
  · unfold Variable.Validate
    rw [if_neg h1, if_neg h2, if_neg h3, if_neg h4]
  · unfold validateVariable
    rw [if_pos]
    push_neg
    exact ⟨h1, h2, h3, h4⟩

/-- C10 witness: a variable of (hypothetical) type `any` passes value
validation on a concrete value and fails declaration validation. -/
theorem claim_C10_witness :
    Variable.Validate ⟨fun _ _ => .ok true, fun _ => true⟩
        ⟨"any", "", none, [], "", "", 0, 0⟩ (.str "x") = none ∧
    validateVariable ⟨fun _ _ => .ok true, fun _ => true⟩
        ⟨"any", "", none, [], "", "", 0, 0⟩ = some "invalid variable type" :=
  claim_C10_unknown_type _ _ _ (by decide)


/-- C5 counterexample: a failing `false` command stops the phase and the
error names the phase, but the failing command's text appears nowhere in the
error, refuting "the returned error identifies the failing command". -/
theorem claim_C5_counterexample :
    executePreGeneration false
        (fun rc => if rc = sb "false" then .exitErr (sb "exit status 1") [] else .ok)
        ⟨[sb "false", sb "echo ok"], []⟩ [] =
      ([sb "false"],
        some (sb "execute pre-generation hook: execute hook command: exit status 1")) ∧
    ¬ (sb "false").IsInfix
        (sb "execute pre-generation hook: execute hook command: exit status 1") := by
  constructor
  · decide
  · decide

theorem executePhase_fail (wrap : List Nat) (stream : Bool) (env : ExecEnv)
    (vals : Values) (cs1 cs2 : List (List Nat)) (c e : List Nat)
    (hok : ∀ c2 ∈ cs1, (executeCommand stream env vals c2).2 = none)
    (hfail : (executeCommand stream env vals c).2 = some e) :
    executePhase wrap stream env vals (cs1 ++ c :: cs2) =
      ((cs1 ++ [c]).filterMap (fun c2 => (executeCommand stream env vals c2).1),
        some (wrap ++ e)) := by
  induction cs1 with
  | nil =>
    simp only [List.nil_append, List.filterMap_cons, List.filterMap_nil]
    rw [executePhase]
    cases hp : executeCommand stream env vals c with
    | mk st err =>
      rw [hp] at hfail
      simp only at hfail
      subst hfail
      cases st <;> rfl
  | cons c1 cs1 ih =>
    have h1 := hok c1 (List.mem_cons_self _ _)
    have hrest : ∀ c2 ∈ cs1, (executeCommand stream env vals c2).2 = none :=
      fun c2 hm => hok c2 (List.mem_cons_of_mem _ hm)
    simp only [List.cons_append]
    rw [executePhase]
    cases hp : executeCommand stream env vals c1 with
    | mk st err =>
      rw [hp] at h1
      simp only at h1
      subst h1
      rw [ih hrest]
      simp only [List.filterMap_cons]
      rw [hp]
      cases st <;> rfl

/-- C5 (amended): in each phase the commands run strictly in list order; the
first failing command stops the phase, so the phase's outcome is a function
of the commands up to and including the failing one and no later command is
rendered or launched; the returned error carries the phase identification
wrapped around the failing command's error — the failing command's text is
not part of the error. -/
theorem claim_C5_phase_order (stream : Bool) (env : ExecEnv) (vals : Values)
    (cs1 cs2 : List (List Nat)) (c e : List Nat) (post pre : List (List Nat))
    (hok : ∀ c2 ∈ cs1, (executeCommand stream env vals c2).2 = none)
    (hfail : (executeCommand stream env vals c).2 = some e) :
    executePreGeneration stream env ⟨cs1 ++ c :: cs2, post⟩ vals =
      ((cs1 ++ [c]).filterMap (fun c2 => (executeCommand stream env vals c2).1),
        some (sb "execute pre-generation hook: " ++ e)) ∧
    executePostGeneration stream env ⟨pre, cs1 ++ c :: cs2⟩ vals =
      ((cs1 ++ [c]).filterMap (fun c2 => (executeCommand stream env vals c2).1),
        some (sb "execute post-generation hook: " ++ e)) :=
  ⟨executePhase_fail _ stream env vals cs1 cs2 c e hok hfail,
   executePhase_fail _ stream env vals cs1 cs2 c e hok hfail⟩

/-- C5 witness: one succeeding command, one failing command, one command
that must not run. -/
theorem claim_C5_witness :
    executePreGeneration false
        (fun rc => if rc = sb "false" then .exitErr (sb "exit status 1") [] else .ok)
        ⟨[sb "echo hi", sb "false", sb "echo ok"], []⟩ [] =
      ([sb "echo hi", sb "false"],
        some (sb "execute pre-generation hook: execute hook command: exit status 1")) := by
  have h := (claim_C5_phase_order false
    (fun rc => if rc = sb "false" then .exitErr (sb "exit status 1") [] else .ok)
    [] [sb "echo hi"] [sb "echo ok"] (sb "false")
    (sb "execute hook command: exit status 1") [] []
    (by
      intro c2 hm
      simp only [List.mem_singleton] at hm
      subst hm
      decide)
    (by decide)).1
  simpa using h


/-- C9 counterexample: the pattern `[` is rejected by the matcher, yet a
directory named exactly `[` is excluded by the literal base-name equality
check, refuting "a malformed ignore pattern never excludes any entry". -/
theorem claim_C9_counterexample :
    filepathMatch (sb "[") (sb "[") = .error () ∧
    shouldIgnoreWithSettings (sb "[") true ⟨[sb "["], false⟩ = true := by
  constructor
  · decide
  · decide

/-- C9 (amended): pattern-match errors are discarded and treated as
non-matches, so a pattern the matcher rejects never excludes an entry
through glob matching and never makes the walk fail; the only exclusion it
can still cause is the directory-only literal equality of the pattern with
the base name. -/
theorem claim_C9_bad_pattern (ps : List (List Nat)) (rel : List Nat)
    (isDir : Bool) (kp : Bool)
    (h : ∀ p ∈ ps, (filepathMatch p (baseName rel)).isOk = false ∧
      (filepathMatch p rel).isOk = false) :
    shouldIgnoreWithSettings rel isDir ⟨ps, kp⟩ =
      (isDir && ps.contains (baseName rel)) := by
  induction ps with
  | nil => simp [shouldIgnoreWithSettings]
  | cons p ps ih =>
    have hp := h p (List.mem_cons_self _ _)
    have hmb : matchBool p (baseName rel) = false := by
      unfold matchBool
      cases hm : filepathMatch p (baseName rel) with
      | ok b => rw [hm] at hp; simp [Except.isOk, Except.toBool] at hp
      | error e => rfl
    have hmr : matchBool p rel = false := by
      unfold matchBool
      cases hm : filepathMatch p rel with
      | ok b => rw [hm] at hp; simp [Except.isOk, Except.toBool] at hp
      | error e => rfl
    have ih2 := ih (fun q hq => h q (List.mem_cons_of_mem _ hq))
    unfold shouldIgnoreWithSettings at ih2 ⊢
    simp only [List.any_cons, hmb, hmr, Bool.false_or, List.contains_cons]
    rw [ih2]
    have hsymm : (baseName rel == p) = (p == baseName rel) := by
      cases hq : (p == baseName rel) with
      | true => simp only [beq_iff_eq] at hq; subst hq; simp
      | false =>
        simp only [beq_eq_false_iff_ne] at hq ⊢
        exact fun hx => hq hx.symm
    cases isDir with
    | false => simp
    | true =>
      have hcc : (p :: ps).contains (baseName rel) =
          ((baseName rel == p) || ps.contains (baseName rel)) := rfl
      simp only [Bool.true_and, hcc, hsymm]

/-- C9 witness: the malformed pattern `[` does not exclude the file
`x.txt`. -/
theorem claim_C9_witness :
    shouldIgnoreWithSettings (sb "x.txt") false ⟨[sb "["], true⟩ =
      (false && [sb "["].contains (baseName (sb "x.txt"))) := by
  apply claim_C9_bad_pattern
  intro p hm
  simp only [List.mem_singleton] at hm
  subst hm
  exact ⟨by decide, by decide⟩

/-- C6: an entry is excluded exactly when some configured pattern glob-
matches its base name or its full relative path, or (directories only) the
pattern equals the base name; an excluded directory contributes no
destination writes and is not descended into (its subtree is never
visited), and an excluded file is not written. -/
theorem claim_C6_ignore_patterns (settings : TemplateSettings) (rel : List Nat)
    (isDir : Bool) (vals : Values) (n content : List Nat) (mode : Nat)
    (cs : List FsTree) :
    (shouldIgnoreWithSettings rel isDir settings = true ↔
      ∃ p ∈ settings.ignorePatterns,
        matchBool p (baseName rel) = true ∨ matchBool p rel = true ∨
          (isDir = true ∧ p = baseName rel)) ∧
    (shouldIgnoreWithSettings rel true settings = true →
      walkNode vals settings (.dir n cs) rel = ⟨[], [rel], none⟩) ∧
    (shouldIgnoreWithSettings rel false settings = true →
      walkNode vals settings (.file n content mode) rel = ⟨[], [rel], none⟩) := by
  refine ⟨?_, ?_, ?_⟩
  · unfold shouldIgnoreWithSettings
    rw [List.any_eq_true]
    constructor
    · rintro ⟨p, hm, hp⟩
      refine ⟨p, hm, ?_⟩
      simp only [Bool.or_eq_true, Bool.and_eq_true, beq_iff_eq] at hp
      tauto
    · rintro ⟨p, hm, hp⟩
      refine ⟨p, hm, ?_⟩
      simp only [Bool.or_eq_true, Bool.and_eq_true, beq_iff_eq]
      tauto
  · intro h
    rw [walkNode]
    by_cases hs : shouldSkip (FsTree.dir n cs).name = true
    · rw [if_pos hs]
    · rw [if_neg hs, if_pos (by simpa [FsTree.isDir] using h)]
  · intro h
    rw [walkNode]
    by_cases hs : shouldSkip (FsTree.file n content mode).name = true
    · rw [if_pos hs]
    · rw [if_neg hs, if_pos (by simpa [FsTree.isDir] using h)]

/-- C6 witness: the pattern `*.log` excludes the directory `logs.log`
entirely and the file `a.log`. -/
theorem claim_C6_witness :
    walkNode [] ⟨[sb "*.log"], false⟩
        (.dir (sb "logs.log") [.file (sb "x") (sb "y") 0]) (sb "logs.log") =
      ⟨[], [sb "logs.log"], none⟩ ∧
    walkNode [] ⟨[sb "*.log"], false⟩ (.file (sb "a.log") (sb "y") 0) (sb "a.log") =
      ⟨[], [sb "a.log"], none⟩ := by
  constructor
  · exact (claim_C6_ignore_patterns ⟨[sb "*.log"], false⟩ (sb "logs.log") true []
      (sb "logs.log") (sb "y") 0 [.file (sb "x") (sb "y") 0]).2.1 (by decide)
  · exact (claim_C6_ignore_patterns ⟨[sb "*.log"], false⟩ (sb "a.log") false []
      (sb "a.log") (sb "y") 0 []).2.2 (by decide)


theorem execNodes_missing (vals : Values) :
    ∀ (ns : List TNode) (k : List Nat), k ∈ tmplRefs ns →
      lookupVal vals k = none → ∃ k2, execNodes vals ns = .error k2 := by
  intro ns
  induction ns with
  | nil => intro k hk _; simp [tmplRefs] at hk
  | cons n ns ih =>
    intro k hk hm
    cases n with
    | text s =>
      have hk2 : k ∈ tmplRefs ns := by simpa [tmplRefs] using hk
      obtain ⟨k2, he⟩ := ih k hk2 hm
      exact ⟨k2, by rw [execNodes, he]; rfl⟩
    | var k1 fs =>
      cases hl : lookupVal vals k1 with
      | none => exact ⟨k1, by rw [execNodes, hl]⟩
      | some v =>
        have hk2 : k ∈ tmplRefs ns := by
          simp only [tmplRefs, List.filterMap_cons] at hk
          simp only [List.mem_cons] at hk
          rcases hk with rfl | hk
          · rw [hl] at hm; cases hm
          · simpa [tmplRefs] using hk
        obtain ⟨k2, he⟩ := ih k hk2 hm
        exact ⟨k2, by rw [execNodes, hl, he]; rfl⟩

theorem renderTemplate_exec (vals : Values) (funcs : FuncTable)
    (tmpl : List Nat) (ns : List TNode)
    (hp : parseTmpl funcs tmpl = .ok ns) :
    renderTemplate funcs tmpl vals =
      (match execNodes vals ns with
        | .error k => .error (.missingKey k)
        | .ok r => .ok r) := by
  rw [renderTemplate, hp]

theorem renderTemplate_missing (vals : Values) (funcs : FuncTable)
    (tmpl k : List Nat) (ns : List TNode)
    (hp : parseTmpl funcs tmpl = .ok ns) (hk : k ∈ tmplRefs ns)
    (hm : lookupVal vals k = none) :
    ∃ k2, renderTemplate funcs tmpl vals = .error (.missingKey k2) := by
  obtain ⟨k2, he⟩ := execNodes_missing vals ns k hk hm
  exact ⟨k2, by rw [renderTemplate_exec vals funcs tmpl ns hp, he]⟩

theorem renderSegs_missing (vals : Values) :
    ∀ segs : List (List Nat),
      (∀ s2 ∈ segs, ∃ ns2, parseTmpl rendererFuncs (trimSpaceB s2) = .ok ns2) →
      (∃ s ∈ segs, ∃ ns k, parseTmpl rendererFuncs (trimSpaceB s) = .ok ns ∧
        k ∈ tmplRefs ns ∧ lookupVal vals k = none) →
      ∃ k2, renderSegs vals segs = .error (.missingKey k2) := by
  intro segs
  induction segs with
  | nil => rintro _ ⟨s, hs, _⟩; cases hs
  | cons s0 rest ih =>
    rintro hall ⟨s, hs, ns, k, hp, hk, hm⟩
    have hall2 : ∀ s2 ∈ rest, ∃ ns2, parseTmpl rendererFuncs (trimSpaceB s2) = .ok ns2 :=
      fun s2 h2 => hall s2 (List.mem_cons_of_mem _ h2)
    rw [renderSegs]
    by_cases h0 : trimSpaceB s0 = []
    · rw [if_pos h0]
      apply ih hall2
      simp only [List.mem_cons] at hs
      rcases hs with rfl | hs
      · rw [h0] at hp
        have hpe : parseTmpl rendererFuncs [] = Except.ok ([] : List TNode) := rfl
        rw [hpe] at hp
        simp only [Except.ok.injEq] at hp
        subst hp
        simp [tmplRefs] at hk
      · exact ⟨s, hs, ns, k, hp, hk, hm⟩
    · rw [if_neg h0]
      obtain ⟨ns0, hp0⟩ := hall s0 (List.mem_cons_self _ _)
      cases hr : renderTemplate rendererFuncs (trimSpaceB s0) vals with
      | error e =>
        rw [renderTemplate_exec vals rendererFuncs _ ns0 hp0] at hr
        cases hx : execNodes vals ns0 with
        | error k2 =>
          rw [hx] at hr
          simp only [Except.error.injEq] at hr
          exact ⟨k2, by rw [← hr]⟩
        | ok r => rw [hx] at hr; cases hr
      | ok r =>
        show ∃ k2, (if trimSpaceB r = [] then renderSegs vals rest
          else (renderSegs vals rest).map (fun l => trimSpaceB r :: l)) =
          Except.error (TErr.missingKey k2)
        have hnotself : s = s0 → False := by
          intro hss
          subst hss
          have hns : ns0 = ns := by
            have := hp0.symm.trans hp
            simpa using this
          subst hns
          obtain ⟨k2, he⟩ := execNodes_missing vals ns0 k hk hm
          rw [renderTemplate_exec vals rendererFuncs _ ns0 hp0, he] at hr
          cases hr
        have hs2 : s ∈ rest := by
          simp only [List.mem_cons] at hs
          rcases hs with rfl | hs
          · exact absurd rfl hnotself
          · exact hs
        by_cases hre : trimSpaceB r = []
        · rw [if_pos hre]
          exact ih hall2 ⟨s, hs2, ns, k, hp, hk, hm⟩
        · rw [if_neg hre]
          obtain ⟨k2, he⟩ := ih hall2 ⟨s, hs2, ns, k, hp, hk, hm⟩
          refine ⟨k2, ?_⟩
          rw [he]
          rfl

/-- C1: referencing a key absent from the values is a hard failure.  (a) A
parsed template with a missing reference always fails execution with the
missing-key error — never an empty substitution.  (b) Such a text file body
makes file processing fail.  (c) At the walk level that file produces no
write, only its visit, and the walk stops with the wrapped template error.
(d) A path segment with a missing reference (all segments parsing) makes the
path render fail and the entry produce no write.  (e) A hook command with a
missing reference fails at render time and its subprocess is never
launched. -/
theorem claim_C1_strict_missing_key (vals : Values) (settings : TemplateSettings) :
    (∀ funcs tmpl ns k, parseTmpl funcs tmpl = .ok ns → k ∈ tmplRefs ns →
      lookupVal vals k = none →
      missingKeyFailure (renderTemplate funcs tmpl vals) = true) ∧
    (∀ content mode ns k, isBinary content = false →
      parseTmpl rendererFuncs content = .ok ns → k ∈ tmplRefs ns →
      lookupVal vals k = none →
      missingKeyFailure (processFileWithSettings content mode vals settings) = true) ∧
    (∀ nm content mode rel ns k tr, shouldSkip nm = false →
      shouldIgnoreWithSettings rel false settings = false →
      renderPath rel vals = .ok tr → tr ≠ [] →
      isBinary content = false → parseTmpl rendererFuncs content = .ok ns →
      k ∈ tmplRefs ns → lookupVal vals k = none →
      (walkNode vals settings (.file nm content mode) rel).written = [] ∧
      (walkNode vals settings (.file nm content mode) rel).visited = [rel] ∧
      fileMissingKeyErr (walkNode vals settings (.file nm content mode) rel).err = true) ∧
    (∀ t rel s ns k, s ∈ splitOnSlash rel →
      (∀ s2 ∈ splitOnSlash rel, ∃ ns2,
        parseTmpl rendererFuncs (trimSpaceB s2) = .ok ns2) →
      parseTmpl rendererFuncs (trimSpaceB s) = .ok ns → k ∈ tmplRefs ns →
      lookupVal vals k = none → shouldSkip t.name = false →
      shouldIgnoreWithSettings rel t.isDir settings = false →
      missingKeyFailure (renderPath rel vals) = true ∧
      (walkNode vals settings t rel).written = [] ∧
      pathMissingKeyErr (walkNode vals settings t rel).err = true) ∧
    (∀ stream env cmd ns k, parseTmpl [] cmd = .ok ns → k ∈ tmplRefs ns →
      lookupVal vals k = none →
      hookRenderFailed (executeCommand stream env vals cmd) = true) := by
  have hfile : ∀ content mode ns k, isBinary content = false →
      parseTmpl rendererFuncs content = .ok ns → k ∈ tmplRefs ns →
      lookupVal vals k = none →
      ∃ k2, processFileWithSettings content mode vals settings =
        .error (.missingKey k2) := by
    intro content mode ns k hb hp hk hm
    obtain ⟨k2, he⟩ := renderTemplate_missing vals rendererFuncs content k ns hp hk hm
    refine ⟨k2, ?_⟩
    unfold processFileWithSettings
    rw [hb]
    simp only [Bool.false_eq_true, if_false]
    rw [he]
  have hpath : ∀ rel s ns k, s ∈ splitOnSlash rel →
      (∀ s2 ∈ splitOnSlash rel, ∃ ns2,
        parseTmpl rendererFuncs (trimSpaceB s2) = .ok ns2) →
      parseTmpl rendererFuncs (trimSpaceB s) = .ok ns → k ∈ tmplRefs ns →
      lookupVal vals k = none →
      ∃ k2, renderPath rel vals = .error (.missingKey k2) := by
    intro rel s ns k hs hall hp hk hm
    obtain ⟨k2, he⟩ := renderSegs_missing vals (splitOnSlash rel) hall
      ⟨s, hs, ns, k, hp, hk, hm⟩
    refine ⟨k2, ?_⟩
    unfold renderPath
    rw [he]
    rfl
  refine ⟨?_, ?_, ?_, ?_, ?_⟩
  · intro funcs tmpl ns k hp hk hm
    obtain ⟨k2, he⟩ := renderTemplate_missing vals funcs tmpl k ns hp hk hm
    rw [he]
    rfl
  · intro content mode ns k hb hp hk hm
    obtain ⟨k2, he⟩ := hfile content mode ns k hb hp hk hm
    rw [he]
    rfl
  · intro nm content mode rel ns k tr hsk hig hrp htr hb hp hk hm
    obtain ⟨k2, he⟩ := hfile content mode ns k hb hp hk hm
    have hw : walkNode vals settings (.file nm content mode) rel =
        ⟨[], [rel], some (.renderFileErr (.missingKey k2))⟩ := by
      rw [walkNode]
      rw [if_neg (by simp [FsTree.name, hsk]), if_neg (by simp [FsTree.isDir, hig])]
      rw [hrp]
      show (if tr = [] then (⟨[], [rel], none⟩ : WalkOut)
        else match processFileWithSettings content mode vals settings with
          | .error e => ⟨[], [rel], some (.renderFileErr e)⟩
          | .ok pair => ⟨[(tr, .fileE pair.1 pair.2)], [rel], none⟩) =
        (⟨[], [rel], some (.renderFileErr (.missingKey k2))⟩ : WalkOut)
      rw [if_neg htr, he]
    rw [hw]
    exact ⟨rfl, rfl, rfl⟩
  · intro t rel s ns k hs hall hp hk hm hsk hig
    obtain ⟨k2, he⟩ := hpath rel s ns k hs hall hp hk hm
    have hw : walkNode vals settings t rel =
        ⟨[], [rel], some (.renderPathErr rel (.missingKey k2))⟩ := by
      rw [walkNode]
      rw [if_neg (by simp [hsk]), if_neg (by simp [hig])]
      rw [he]
    rw [he, hw]
    exact ⟨rfl, rfl, rfl⟩
  · intro stream env cmd ns k hp hk hm
    obtain ⟨k2, he⟩ := renderTemplate_missing vals [] cmd k ns hp hk hm
    unfold executeCommand renderCommand
    rw [he]
    show (sb "render hook command: ").isPrefixOf
      (sb "render hook command: " ++ terrBytes (.missingKey k2)) = true
    rw [List.isPrefixOf_iff_prefix]
    exact ⟨_, rfl⟩

/-- C1 witness: a file body and a hook command referencing the undefined
key `name` with an empty values mapping. -/
theorem claim_C1_witness :
    missingKeyFailure (renderTemplate rendererFuncs (sb "Hi {{.name}}") []) = true ∧
    hookRenderFailed (executeCommand true (fun _ => .ok) [] (sb "echo {{.name}}")) = true := by
  constructor
  · exact (claim_C1_strict_missing_key [] ⟨[], false⟩).1 rendererFuncs (sb "Hi {{.name}}")
      [.text (sb "Hi "), .var (sb "name") []] (sb "name") (by decide) (by decide) rfl
  · exact (claim_C1_strict_missing_key [] ⟨[], false⟩).2.2.2.2 true (fun _ => .ok)
      (sb "echo {{.name}}") [.text (sb "echo "), .var (sb "name") []] (sb "name")
      (by decide) (by decide) rfl


/-! ### C3: path templating refinement -/

/-- A whitespace byte is neither `{` (123) nor `}` (125). -/
theorem isSpaceByte_ne {b : Nat} (h : isSpaceByte b = true) : b ≠ 123 ∧ b ≠ 125 := by
  simp only [isSpaceByte, Bool.or_eq_true, beq_iff_eq, Bool.and_eq_true,
    decide_eq_true_eq] at h
  omega

/-- A brace-free string parses to a single text node (or nothing when
empty). -/
theorem parseScan_text (funcs : FuncTable) :
    ∀ m : List Nat, (∀ b ∈ m, b ≠ 123) →
      parseScan funcs none m = .ok (if m = [] then [] else [.text m]) := by
  intro m
  induction m with
  | nil => intro _; rw [parseScan.eq_1]; simp
  | cons c r ih =>
    intro h
    have hc : c ≠ 123 := h c (List.mem_cons_self c r)
    rw [parseScan.eq_3 funcs c r (fun _ hc' _ => hc hc')]
    rw [ih (fun b hb => h b (List.mem_cons_of_mem c hb))]
    by_cases hr : r = []
    · subst hr; simp [consText, Except.map]
    · simp only [hr, if_false, List.cons_ne_nil, if_neg, Except.map]
      cases r with
      | nil => exact absurd rfl hr
      | cons x xs => rfl

/-- Inside an action, a close-brace-free remainder always ends in the
unclosed-action error. -/
theorem parseScan_unclosed (funcs : FuncTable) :
    ∀ m : List Nat, ∀ acc, (∀ b ∈ m, b ≠ 125) →
      parseScan funcs (some acc) m = .error .unclosedAction := by
  intro m
  induction m with
  | nil => intro acc _; rfl
  | cons c r ih =>
    intro acc h
    have hc : c ≠ 125 := h c (List.mem_cons_self c r)
    rw [parseScan.eq_6 funcs acc c r (fun _ hc' _ => hc hc')]
    exact ih (c :: acc) (fun b hb => h b (List.mem_cons_of_mem c hb))

/-- `execNodes` after a literal-byte prepend: the byte is prepended to the
rendered output. -/
theorem exec_consText (vals : Values) (c : Nat) (ns : List TNode) :
    execNodes vals (consText c ns) = (execNodes vals ns).map (c :: ·) := by
  cases ns with
  | nil => rfl
  | cons n tl =>
    cases n with
    | text s =>
      show execNodes vals (.text (c :: s) :: tl) = _
      cases hx : execNodes vals tl <;> simp [execNodes, hx, Except.map]
    | var k fs =>
      show execNodes vals (.text [c] :: .var k fs :: tl) = _
      cases hl : lookupVal vals k <;>
        cases hx : execNodes vals tl <;> simp [execNodes, hl, hx, Except.map]

/-- `execNodes` after a literal-string prepend. -/
theorem exec_consTextL (vals : Values) (ws : List Nat) (ns : List TNode) :
    execNodes vals (consTextL ws ns) = (execNodes vals ns).map (ws ++ ·) := by
  induction ws with
  | nil =>
    show execNodes vals ns = _
    cases hx : execNodes vals ns <;> simp [Except.map]
  | cons w ws ih =>
    show execNodes vals (consText w (consTextL ws ns)) = _
    rw [exec_consText, ih]
    cases hx : execNodes vals ns <;> simp [hx, Except.map]

theorem nsAppend_var_cons (ws : List Nat) (k : List Nat) (fs : List Helper)
    (ns : List TNode) :
    nsAppendWs ws (.var k fs :: ns) = .var k fs :: nsAppendWs ws ns := by
  cases ns <;> rfl

theorem nsAppend_cons_cons (ws : List Nat) (n m : TNode) (ns : List TNode) :
    nsAppendWs ws (n :: m :: ns) = n :: nsAppendWs ws (m :: ns) := by
  cases n <;> rfl

/-- Literal-byte prepend commutes with literal-suffix append on node
lists. -/
theorem consText_nsAppend (c : Nat) (ws : List Nat) (ns : List TNode) :
    consText c (nsAppendWs ws ns) = nsAppendWs ws (consText c ns) := by
  cases ns with
  | nil => simp [nsAppendWs, consText]
  | cons n tl =>
    cases n with
    | text s =>
      cases tl with
      | nil => simp [nsAppendWs, consText]
      | cons m tl' =>
        rw [nsAppend_cons_cons]
        show TNode.text (c :: s) :: nsAppendWs ws (m :: tl')
          = nsAppendWs ws (.text (c :: s) :: m :: tl')
        rw [nsAppend_cons_cons]
    | var k fs =>
      rw [nsAppend_var_cons]
      show TNode.text [c] :: .var k fs :: nsAppendWs ws tl
        = nsAppendWs ws (.text [c] :: .var k fs :: tl)
      rw [nsAppend_cons_cons, nsAppend_var_cons]

/-- `execNodes` after a literal-suffix append: the bytes land at the end of
the rendered output. -/
theorem exec_nsAppend (vals : Values) (ws : List Nat) (ns : List TNode) :
    execNodes vals (nsAppendWs ws ns) = (execNodes vals ns).map (· ++ ws) := by
  induction ns with
  | nil => simp [nsAppendWs, execNodes, Except.map]
  | cons n tl ih =>
    cases tl with
    | nil =>
      cases n with
      | text s => simp [nsAppendWs, execNodes, Except.map]
      | var k fs =>
        rw [nsAppend_var_cons]
        cases hl : lookupVal vals k <;> simp [execNodes, nsAppendWs, hl, Except.map]
    | cons m tl' =>
      rw [nsAppend_cons_cons]
      cases n with
      | text s =>
        show execNodes vals (.text s :: nsAppendWs ws (m :: tl')) = _
        rw [show execNodes vals (.text s :: nsAppendWs ws (m :: tl'))
            = (execNodes vals (nsAppendWs ws (m :: tl'))).map (s ++ ·) from rfl]
        rw [ih]
        cases hx : execNodes vals (m :: tl') <;> simp [execNodes, hx, Except.map]
      | var k fs =>
        cases hl : lookupVal vals k <;>
          · rw [show execNodes vals (.var k fs :: nsAppendWs ws (m :: tl'))
                = match lookupVal vals k with
                  | none => .error k
                  | some v => (execNodes vals (nsAppendWs ws (m :: tl'))).map
                      (fun r => fs.foldl (fun a f => applyHelper f a) (tvalBytes v) ++ r)
              from rfl]
            rw [hl, ih]
            cases hx : execNodes vals (m :: tl') <;> simp [execNodes, hl, hx, Except.map]

/-- `parsePipes` only ever builds a field node for its key. -/
theorem parsePipes_shape (funcs : FuncTable) (key : List Nat) :
    ∀ fuel r acc node, parsePipes funcs key fuel r acc = .ok node →
      ∃ fs, node = .var key fs := by
  intro fuel r acc
  induction fuel, r, acc using parsePipes.induct funcs key with
  | case1 t acc =>
    intro node h
    rw [parsePipes.eq_1] at h
    exact ⟨acc.reverse, (Except.ok.inj h).symm⟩
  | case2 fuel r acc r1 fname hlook =>
    intro node h
    have hlook' : lookupFn funcs
        (List.takeWhile identByte (List.dropWhile actionSpace r)) = none := hlook
    rw [parsePipes.eq_2, hlook'] at h
    simp at h
  | case3 fuel r acc r1 fname hfn hlook ih =>
    intro node h
    have hlook' : lookupFn funcs
        (List.takeWhile identByte (List.dropWhile actionSpace r)) = some hfn := hlook
    rw [parsePipes.eq_2, hlook'] at h
    exact ih node h
  | case4 n head tail x hne =>
    intro node h
    rw [parsePipes.eq_3 funcs key x n head tail hne] at h
    simp at h
  | case5 head tail x =>
    intro node h
    rw [parsePipes.eq_4] at h
    simp at h

/-- `parseAction` only ever yields a field node. -/
theorem parseAction_shape (funcs : FuncTable) (act : List Nat) (node : TNode)
    (h : parseAction funcs act = .ok node) : ∃ k fs, node = .var k fs := by
  unfold parseAction at h
  split at h
  · rename_i x r heq
    have h2 : (if List.takeWhile identByte r = []
          then (Except.error PErr.badAction : Except PErr TNode)
          else parsePipes funcs (List.takeWhile identByte r) (r.length + 1)
            (List.dropWhile actionSpace (List.dropWhile identByte r)) [])
        = Except.ok node := h
    split at h2
    · simp at h2
    · obtain ⟨fs, hfs⟩ := parsePipes_shape funcs _ _ _ _ node h2
      exact ⟨_, fs, hfs⟩
  · simp at h

/-- Appending trailing whitespace to a template input: a successful parse
gains the whitespace as trailing literal text, a failing parse fails with
the same error. -/
theorem parseScan_append_ws (funcs : FuncTable) (ws : List Nat)
    (hws : ∀ b ∈ ws, isSpaceByte b = true) (hne : ws ≠ []) :
    ∀ st m, parseScan funcs st (m ++ ws) =
      match parseScan funcs st m with
      | .error e => .error e
      | .ok ns => .ok (nsAppendWs ws ns) := by
  have hw123 : ∀ b ∈ ws, b ≠ 123 := fun b hb => (isSpaceByte_ne (hws b hb)).1
  have hw125 : ∀ b ∈ ws, b ≠ 125 := fun b hb => (isSpaceByte_ne (hws b hb)).2
  intro st m
  induction st, m using parseScan.induct funcs with
  | case1 =>
    show parseScan funcs none ws = _
    rw [parseScan_text funcs ws hw123, parseScan.eq_1]
    simp [hne, nsAppendWs]
  | case2 r ih =>
    show parseScan funcs none (123 :: 123 :: (r ++ ws)) = _
    rw [parseScan.eq_2, parseScan.eq_2]
    exact ih
  | case3 c r hcond ih =>
    have hside : ∀ r1, c = 123 → r ++ ws = 123 :: r1 → False := by
      intro r1 hc hr
      cases r with
      | nil =>
        simp only [List.nil_append] at hr
        exact hw123 123 (hr ▸ List.mem_cons_self _ _) rfl
      | cons x xs =>
        simp only [List.cons_append, List.cons.injEq] at hr
        exact (hcond xs hc (by rw [hr.1])).elim
    show parseScan funcs none (c :: (r ++ ws)) = _
    rw [parseScan.eq_3 funcs c (r ++ ws) hside,
        parseScan.eq_3 funcs c r hcond, ih]
    cases hx : parseScan funcs none r with
    | error e => simp [Except.map]
    | ok ns => simp [Except.map, consText_nsAppend]
  | case4 acc =>
    show parseScan funcs (some acc) ws = _
    rw [parseScan_unclosed funcs ws acc hw125]
    rfl
  | case5 acc r ih =>
    show parseScan funcs (some acc) (125 :: 125 :: (r ++ ws)) = _
    rw [parseScan.eq_5, parseScan.eq_5]
    cases ha : parseAction funcs acc.reverse with
    | error e => rfl
    | ok node =>
      obtain ⟨k, fs, rfl⟩ := parseAction_shape funcs _ _ ha
      show (parseScan funcs none (r ++ ws)).bind
          (fun ns => Except.ok (TNode.var k fs :: ns)) = _
      rw [ih]
      cases hx : parseScan funcs none r with
      | error e => rfl
      | ok ns =>
        show Except.ok (TNode.var k fs :: nsAppendWs ws ns)
          = Except.ok (nsAppendWs ws (TNode.var k fs :: ns))
        rw [nsAppend_var_cons]
  | case6 acc c r hcond ih =>
    have hside : ∀ r1, c = 125 → r ++ ws = 125 :: r1 → False := by
      intro r1 hc hr
      cases r with
      | nil =>
        simp only [List.nil_append] at hr
        exact hw125 125 (hr ▸ List.mem_cons_self _ _) rfl
      | cons x xs =>
        simp only [List.cons_append, List.cons.injEq] at hr
        exact (hcond xs hc (by rw [hr.1])).elim
    show parseScan funcs (some acc) (c :: (r ++ ws)) = _
    rw [parseScan.eq_6 funcs acc c (r ++ ws) hside,
        parseScan.eq_6 funcs acc c r hcond]
    exact ih

/-- Prepending leading whitespace to a template input merges it into a
leading literal text node. -/
theorem parseScan_prepend_ws (funcs : FuncTable) (ws : List Nat)
    (hws : ∀ b ∈ ws, isSpaceByte b = true) :
    ∀ m, parseScan funcs none (ws ++ m)
      = (parseScan funcs none m).map (consTextL ws) := by
  induction ws with
  | nil =>
    intro m
    cases hx : parseScan funcs none m <;> simp [consTextL, Except.map, hx]
  | cons w ws ih =>
    intro m
    have hw : w ≠ 123 :=
      (isSpaceByte_ne (hws w (List.mem_cons_self w ws))).1
    have hws' : ∀ b ∈ ws, isSpaceByte b = true :=
      fun b hb => hws b (List.mem_cons_of_mem w hb)
    show parseScan funcs none (w :: (ws ++ m)) = _
    rw [parseScan.eq_3 funcs w (ws ++ m) (fun _ hc _ => hw hc), ih hws']
    cases hx : parseScan funcs none m <;> simp [consTextL, Except.map]

/-- Whitespace padding of a template input: the rendering succeeds or fails
exactly as the unpadded input does, with the padding re-attached around a
successful output. -/
theorem renderTemplate_pad (funcs : FuncTable) (vals : Values) (ws1 t ws2 : List Nat)
    (h1 : ∀ b ∈ ws1, isSpaceByte b = true) (h2 : ∀ b ∈ ws2, isSpaceByte b = true) :
    renderTemplate funcs (ws1 ++ t ++ ws2) vals
      = (renderTemplate funcs t vals).map (fun r => ws1 ++ r ++ ws2) := by
  unfold renderTemplate parseTmpl
  by_cases hw2 : ws2 = []
  · subst hw2
    rw [List.append_nil, parseScan_prepend_ws funcs ws1 h1 t]
    cases hp : parseScan funcs none t with
    | error e => rfl
    | ok ns =>
      show (match Except.map (consTextL ws1) (Except.ok ns) with
          | .error e => Except.error (TErr.parse e)
          | .ok ns =>
            match execNodes vals ns with
            | .error k => Except.error (TErr.missingKey k)
            | .ok r => Except.ok r)
        = Except.map (fun r => ws1 ++ r ++ [])
            (match execNodes vals ns with
             | .error k => Except.error (TErr.missingKey k)
             | .ok r => Except.ok r)
      show (match execNodes vals (consTextL ws1 ns) with
          | .error k => Except.error (TErr.missingKey k)
          | .ok r => Except.ok r)
        = Except.map (fun r => ws1 ++ r ++ [])
            (match execNodes vals ns with
             | .error k => Except.error (TErr.missingKey k)
             | .ok r => Except.ok r)
      rw [exec_consTextL]
      cases hx : execNodes vals ns with
      | error k => rfl
      | ok r =>
        show Except.ok (ws1 ++ r) = Except.ok (ws1 ++ r ++ [])
        rw [List.append_nil]
  · rw [List.append_assoc, parseScan_prepend_ws funcs ws1 h1 (t ++ ws2),
        parseScan_append_ws funcs ws2 h2 hw2 none t]
    cases hp : parseScan funcs none t with
    | error e => rfl
    | ok ns =>
      show (match execNodes vals (consTextL ws1 (nsAppendWs ws2 ns)) with
          | .error k => Except.error (TErr.missingKey k)
          | .ok r => Except.ok r)
        = Except.map (fun r => ws1 ++ r ++ ws2)
            (match execNodes vals ns with
             | .error k => Except.error (TErr.missingKey k)
             | .ok r => Except.ok r)
      rw [exec_consTextL, exec_nsAppend]
      cases hx : execNodes vals ns with
      | error k => rfl
      | ok r =>
        show Except.ok (ws1 ++ (r ++ ws2)) = Except.ok (ws1 ++ r ++ ws2)
        rw [List.append_assoc]

theorem dropWhile_all_append {p : Nat → Bool} (ws l : List Nat)
    (h : ∀ b ∈ ws, p b = true) :
    List.dropWhile p (ws ++ l) = List.dropWhile p l := by
  induction ws with
  | nil => rfl
  | cons w ws ih =>
    rw [List.cons_append, List.dropWhile_cons,
      if_pos (h w (List.mem_cons_self w ws))]
    exact ih (fun b hb => h b (List.mem_cons_of_mem w hb))

theorem dropWhile_append_ne_nil {p : Nat → Bool} (a b : List Nat)
    (h : List.dropWhile p a ≠ []) :
    List.dropWhile p (a ++ b) = List.dropWhile p a ++ b := by
  induction a with
  | nil => exact absurd rfl h
  | cons x xs ih =>
    by_cases hx : p x = true
    · rw [List.cons_append, List.dropWhile_cons, if_pos hx,
        List.dropWhile_cons, if_pos hx]
      exact ih (by rwa [List.dropWhile_cons, if_pos hx] at h)
    · have hx' : p x = false := by simpa using hx
      rw [List.cons_append, List.dropWhile_cons, if_neg (by simp [hx']),
        List.dropWhile_cons, if_neg (by simp [hx']), List.cons_append]

/-- Trimming absorbs whitespace padding. -/
theorem trimSpaceB_pad (ws1 r ws2 : List Nat)
    (h1 : ∀ b ∈ ws1, isSpaceByte b = true)
    (h2 : ∀ b ∈ ws2, isSpaceByte b = true) :
    trimSpaceB (ws1 ++ r ++ ws2) = trimSpaceB r := by
  unfold trimSpaceB
  rw [List.append_assoc, dropWhile_all_append ws1 (r ++ ws2) h1]
  by_cases hd : List.dropWhile isSpaceByte r = []
  · have hr : ∀ b ∈ r, isSpaceByte b = true := List.dropWhile_eq_nil_iff.mp hd
    have hall : List.dropWhile isSpaceByte (r ++ ws2) = [] :=
      List.dropWhile_eq_nil_iff.mpr (by
        intro x hx
        rcases List.mem_append.mp hx with h | h
        exacts [hr x h, h2 x h])
    rw [hall, hd]
  · rw [dropWhile_append_ne_nil r ws2 hd, List.reverse_append,
      dropWhile_all_append _ _ (fun b hb => h2 b (List.mem_reverse.mp hb))]

/-- Every string is its trim surrounded by whitespace. -/
theorem trim_decomp (s : List Nat) :
    ∃ ws1 ws2, (∀ b ∈ ws1, isSpaceByte b = true) ∧
      (∀ b ∈ ws2, isSpaceByte b = true) ∧
      s = ws1 ++ trimSpaceB s ++ ws2 := by
  refine ⟨s.takeWhile isSpaceByte,
    ((s.dropWhile isSpaceByte).reverse.takeWhile isSpaceByte).reverse,
    ?_, ?_, ?_⟩
  · intro b hb; exact List.mem_takeWhile_imp hb
  · intro b hb; exact List.mem_takeWhile_imp (List.mem_reverse.mp hb)
  · rw [List.append_assoc]
    conv_lhs => rw [← List.takeWhile_append_dropWhile isSpaceByte s]
    congr 1
    show List.dropWhile isSpaceByte s = _
    unfold trimSpaceB
    rw [← List.reverse_append, List.takeWhile_append_dropWhile,
      List.reverse_reverse]

/-- The renderer's per-segment loop equals the spec-side loop that renders
the untrimmed segment and trims afterwards. -/
theorem renderSegs_eq_spec (vals : Values) :
    ∀ segs, renderSegs vals segs = renderSegsSpec vals segs := by
  intro segs
  induction segs with
  | nil => rfl
  | cons s ss ih =>
    obtain ⟨ws1, ws2, h1, h2, hdecomp⟩ := trim_decomp s
    by_cases ht : trimSpaceB s = []
    · have hs : renderTemplate rendererFuncs s vals = .ok (ws1 ++ [] ++ ws2) := by
        conv_lhs => rw [hdecomp, ht]
        rw [renderTemplate_pad rendererFuncs vals ws1 [] ws2 h1 h2]
        rfl
      have htrim : trimSpaceB (ws1 ++ [] ++ ws2) = [] := by
        rw [trimSpaceB_pad ws1 [] ws2 h1 h2]; rfl
      rw [renderSegs, renderSegsSpec, if_pos ht, hs]
      simp only [htrim, if_pos]
      exact ih
    · have hs : renderTemplate rendererFuncs s vals
          = (renderTemplate rendererFuncs (trimSpaceB s) vals).map
              (fun r => ws1 ++ r ++ ws2) := by
        conv_lhs => rw [hdecomp]
        exact renderTemplate_pad rendererFuncs vals ws1 (trimSpaceB s) ws2 h1 h2
      rw [renderSegs, renderSegsSpec, if_neg ht, hs]
      cases hr : renderTemplate rendererFuncs (trimSpaceB s) vals with
      | error e => rfl
      | ok r =>
        have htr : trimSpaceB (ws1 ++ r ++ ws2) = trimSpaceB r :=
          trimSpaceB_pad ws1 r ws2 h1 h2
        show (if trimSpaceB r = [] then renderSegs vals ss
            else (renderSegs vals ss).map (trimSpaceB r :: ·))
          = (if trimSpaceB (ws1 ++ r ++ ws2) = [] then renderSegsSpec vals ss
            else (renderSegsSpec vals ss).map (trimSpaceB (ws1 ++ r ++ ws2) :: ·))
        rw [htr, ih]

/-- A directory whose whole rendered relative path is empty contributes no
writes and no visits beyond itself: the subtree is skipped. -/
theorem walkNode_empty_dir (vals : Values) (settings : TemplateSettings)
    (name : List Nat) (cs : List FsTree) (rel : List Nat)
    (hrp : renderPath rel vals = .ok []) :
    walkNode vals settings (.dir name cs) rel = ⟨[], [rel], none⟩ := by
  rw [walkNode]
  by_cases hsk : shouldSkip (FsTree.name (.dir name cs)) = true
  · simp [hsk]
  · by_cases hig : shouldIgnoreWithSettings rel (FsTree.isDir (.dir name cs)) settings = true
    · simp [hsk, hig]
    · simp [hsk, hig, hrp]

/-- C3: during path templating, every relative path is split into segments,
each segment is rendered against the values and trimmed of surrounding
whitespace, segments that render to the empty string are dropped from the
output path (`renderPath` equals the spec-side split-render-trim-drop
pipeline `renderPathSpec`); and for every directory whose entire rendered
relative path is empty, the walk emits no writes and visits nothing beyond
the directory itself, so the directory and all of its descendants are
skipped and none of them appear in the destination tree. -/
theorem claim_C3_path_templating :
    (∀ rel vals, renderPath rel vals = renderPathSpec rel vals) ∧
    (∀ vals settings name cs rel,
      renderPath rel vals = .ok [] →
      walkNode vals settings (.dir name cs) rel = ⟨[], [rel], none⟩) := by
  constructor
  · intro rel vals
    unfold renderPath renderPathSpec
    rw [renderSegs_eq_spec]
  · intro vals settings name cs rel hrp
    exact walkNode_empty_dir vals settings name cs rel hrp

/-- Witness for C3 at a concrete input: the path `"{{.d}}"` with `d` bound
to the empty string renders to the empty path, and a directory with that
relative path is skipped together with the file inside it. -/
theorem claim_C3_witness :
    renderPath (sb "{{.d}}") [(sb "d", .str [])]
      = renderPathSpec (sb "{{.d}}") [(sb "d", .str [])] ∧
    walkNode [(sb "d", .str [])] ⟨[], false⟩
      (.dir (sb "{{.d}}") [.file (sb "a.txt") (sb "hi") 0o644]) (sb "{{.d}}")
      = ⟨[], [sb "{{.d}}"], none⟩ :=
  ⟨claim_C3_path_templating.1 (sb "{{.d}}") [(sb "d", .str [])],
   claim_C3_path_templating.2 [(sb "d", .str [])] ⟨[], false⟩
     (sb "{{.d}}") [.file (sb "a.txt") (sb "hi") 0o644] (sb "{{.d}}")
     (by decide)⟩


/-! ### C8: determinism of rendering across directory-enumeration orders -/

theorem bytesLt_irrefl : ∀ a, bytesLt a a = false := by
  intro a
  induction a with
  | nil => rfl
  | cons x xs ih => simp [bytesLt, Nat.lt_irrefl, ih]

theorem bytesLt_asymm : ∀ a b, bytesLt a b = true → bytesLt b a = false := by
  intro a
  induction a with
  | nil =>
    intro b h
    cases b with
    | nil => simp [bytesLt] at h
    | cons y ys => rfl
  | cons x xs ih =>
    intro b h
    cases b with
    | nil => simp [bytesLt] at h
    | cons y ys =>
      rcases Nat.lt_trichotomy x y with h1 | h1 | h1
      · simp [bytesLt, h1, Nat.lt_asymm h1]
      · subst h1
        simp only [bytesLt, Nat.lt_irrefl, if_false] at h ⊢
        exact ih ys h
      · simp [bytesLt, h1, Nat.lt_asymm h1] at h

theorem bytesLt_conn : ∀ a b, a ≠ b → bytesLt a b = true ∨ bytesLt b a = true := by
  intro a
  induction a with
  | nil =>
    intro b hne
    cases b with
    | nil => exact absurd rfl hne
    | cons y ys => left; rfl
  | cons x xs ih =>
    intro b hne
    cases b with
    | nil => right; rfl
    | cons y ys =>
      rcases Nat.lt_trichotomy x y with h1 | h1 | h1
      · left; simp [bytesLt, h1]
      · subst h1
        have hxs : xs ≠ ys := fun hh => hne (by rw [hh])
        rcases ih ys hxs with h | h
        · left; simp [bytesLt, Nat.lt_irrefl, h]
        · right; simp [bytesLt, Nat.lt_irrefl, h]
      · right; simp [bytesLt, h1]

theorem bytesLt_trans : ∀ a b c, bytesLt a b = true → bytesLt b c = true →
    bytesLt a c = true := by
  intro a
  induction a with
  | nil =>
    intro b c h1 h2
    cases b with
    | nil => simp [bytesLt] at h1
    | cons y ys =>
      cases c with
      | nil => simp [bytesLt] at h2
      | cons z zs => rfl
  | cons x xs ih =>
    intro b c h1 h2
    cases b with
    | nil => simp [bytesLt] at h1
    | cons y ys =>
      cases c with
      | nil => simp [bytesLt] at h2
      | cons z zs =>
        have H1 : x < y ∨ (x = y ∧ bytesLt xs ys = true) := by
          by_cases hxy : x < y
          · exact Or.inl hxy
          · by_cases hyx : y < x
            · simp [bytesLt, hxy, hyx] at h1
            · exact Or.inr ⟨by omega, by simpa [bytesLt, hxy, hyx] using h1⟩
        have H2 : y < z ∨ (y = z ∧ bytesLt ys zs = true) := by
          by_cases hyz : y < z
          · exact Or.inl hyz
          · by_cases hzy : z < y
            · simp [bytesLt, hyz, hzy] at h2
            · exact Or.inr ⟨by omega, by simpa [bytesLt, hyz, hzy] using h2⟩
        rcases H1 with h1' | ⟨rfl, h1'⟩
        · rcases H2 with h2' | ⟨rfl, h2'⟩
          · simp [bytesLt, Nat.lt_trans h1' h2']
          · simp [bytesLt, h1']
        · rcases H2 with h2' | ⟨rfl, h2'⟩
          · simp [bytesLt, h2']
          · simp only [bytesLt, Nat.lt_irrefl, if_false]
            exact ih ys zs h1' h2'

theorem bytesLe_of_lt {a b : List Nat} (h : bytesLt a b = true) :
    bytesLe a b = true := by
  unfold bytesLe
  rw [bytesLt_asymm a b h]
  rfl

theorem bytesLe_of_not_le {a b : List Nat} (h : bytesLe a b = false) :
    bytesLe b a = true := by
  unfold bytesLe at h ⊢
  have hba : bytesLt b a = true := by
    cases hx : bytesLt b a
    · rw [hx] at h; simp at h
    · rfl
  rw [bytesLt_asymm b a hba]
  rfl

theorem bytesLe_trans {a b c : List Nat} (h1 : bytesLe a b = true)
    (h2 : bytesLe b c = true) : bytesLe a c = true := by
  unfold bytesLe at h1 h2 ⊢
  have hba : bytesLt b a = false := by
    cases hx : bytesLt b a
    · rfl
    · rw [hx] at h1; simp at h1
  have hcb : bytesLt c b = false := by
    cases hx : bytesLt c b
    · rfl
    · rw [hx] at h2; simp at h2
  have hca : bytesLt c a = false := by
    by_cases hac : c = a
    · subst hac; exact bytesLt_irrefl c
    · cases hx : bytesLt c a
      · rfl
      · by_cases hab : a = b
        · subst hab; rw [hx] at hcb; exact hcb
        · rcases bytesLt_conn a b hab with h | h
          · have := bytesLt_trans c a b hx h
            rw [this] at hcb; exact hcb
          · rw [h] at hba; exact hba
  rw [hca]
  rfl

theorem insertByName_perm (t : FsTree) :
    ∀ l, (insertByName t l).Perm (t :: l) := by
  intro l
  induction l with
  | nil => exact List.Perm.refl _
  | cons u us ih =>
    show (if bytesLe t.name u.name then t :: u :: us
        else u :: insertByName t us).Perm (t :: u :: us)
    by_cases hle : bytesLe t.name u.name = true
    · rw [if_pos hle]
    · rw [if_neg hle]
      exact (ih.cons u).trans (List.Perm.swap t u us)

theorem sortByName_perm : ∀ l, (sortByName l).Perm l := by
  intro l
  induction l with
  | nil => exact List.Perm.refl _
  | cons t ts ih =>
    show (insertByName t (sortByName ts)).Perm (t :: ts)
    exact (insertByName_perm t (sortByName ts)).trans (ih.cons t)

theorem insertByName_sorted (t : FsTree) :
    ∀ l, l.Pairwise (fun a b : FsTree => bytesLe a.name b.name = true) →
      (insertByName t l).Pairwise
        (fun a b : FsTree => bytesLe a.name b.name = true) := by
  intro l
  induction l with
  | nil =>
    intro _
    exact List.pairwise_singleton _ t
  | cons u us ih =>
    intro h
    show (if bytesLe t.name u.name then t :: u :: us
        else u :: insertByName t us).Pairwise _
    by_cases hle : bytesLe t.name u.name = true
    · rw [if_pos hle]
      refine h.cons ?_
      intro x hx
      rcases List.mem_cons.mp hx with rfl | hx
      · exact hle
      · exact bytesLe_trans hle (List.rel_of_pairwise_cons h hx)
    · rw [if_neg hle]
      have hle' : bytesLe t.name u.name = false := by
        cases hx : bytesLe t.name u.name
        · rfl
        · exact absurd hx hle
      have hut : bytesLe u.name t.name = true := bytesLe_of_not_le hle'
      refine List.Pairwise.cons ?_ (ih h.of_cons)
      intro x hx
      rcases List.mem_cons.mp ((insertByName_perm t us).mem_iff.mp hx) with rfl | h'
      · exact hut
      · exact List.rel_of_pairwise_cons h h'

theorem sortByName_sorted :
    ∀ l, (sortByName l).Pairwise
      (fun a b : FsTree => bytesLe a.name b.name = true) := by
  intro l
  induction l with
  | nil => exact List.Pairwise.nil
  | cons t ts ih =>
    show (insertByName t (sortByName ts)).Pairwise _
    exact insertByName_sorted t (sortByName ts) ih

theorem sortTree_name (t : FsTree) : (sortTree t).name = t.name := by
  cases t <;> rfl

theorem sortTrees_names : ∀ ts : List FsTree,
    (sortTrees ts).map FsTree.name = ts.map FsTree.name := by
  intro ts
  induction ts with
  | nil => rfl
  | cons t ts ih =>
    show (sortTree t :: sortTrees ts).map FsTree.name = _
    simp [sortTree_name, ih]

theorem nodupL_cons {t : FsTree} {ts : List FsTree}
    (h : nodupNamesL (t :: ts) = true) :
    FsTree.name t ∉ ts.map FsTree.name ∧ nodupNamesT t = true ∧
      nodupNamesL ts = true := by
  have h' : (!decide (FsTree.name t ∈ ts.map FsTree.name) && nodupNamesT t
      && nodupNamesL ts) = true := h
  simp only [Bool.and_eq_true, Bool.not_eq_true', decide_eq_false_iff_not] at h'
  exact ⟨h'.1.1, h'.1.2, h'.2⟩

theorem nodupL_build {t : FsTree} {ts : List FsTree}
    (h1 : FsTree.name t ∉ ts.map FsTree.name) (h2 : nodupNamesT t = true)
    (h3 : nodupNamesL ts = true) : nodupNamesL (t :: ts) = true := by
  show (!decide (FsTree.name t ∈ ts.map FsTree.name) && nodupNamesT t
      && nodupNamesL ts) = true
  simp [h1, h2, h3]

theorem nodupL_names : ∀ ts : List FsTree, nodupNamesL ts = true →
    (ts.map FsTree.name).Nodup := by
  intro ts
  induction ts with
  | nil => intro _; simp
  | cons t ts ih =>
    intro h
    obtain ⟨h1, _, h3⟩ := nodupL_cons h
    simp only [List.map_cons, List.nodup_cons]
    exact ⟨h1, ih h3⟩

theorem tperm_name {t u : FsTree} (h : TPerm t u) :
    FsTree.name t = FsTree.name u := by
  cases h <;> rfl

/-- Two lists sorted strictly by name that are permutations of each other
are equal. -/
theorem sorted_perm_eq :
    ∀ l1 l2 : List FsTree, l1.Perm l2 →
      l1.Pairwise (fun a b : FsTree => bytesLt a.name b.name = true) →
      l2.Pairwise (fun a b : FsTree => bytesLt a.name b.name = true) →
      l1 = l2 := by
  intro l1
  induction l1 with
  | nil =>
    intro l2 h _ _
    exact (List.Perm.nil_eq h).symm ▸ rfl
  | cons a t1 ih =>
    intro l2 h s1 s2
    cases l2 with
    | nil => simpa using h.length_eq
    | cons b t2 =>
      have hab : a = b := by
        rcases List.mem_cons.mp (h.subset (List.mem_cons_self a t1)) with rfl | ha
        · rfl
        · rcases List.mem_cons.mp (h.symm.subset (List.mem_cons_self b t2)) with rfl | hb
          · rfl
          · have h1 : bytesLt a.name b.name = true := List.rel_of_pairwise_cons s1 hb
            have h2 : bytesLt b.name a.name = true := List.rel_of_pairwise_cons s2 ha
            rw [bytesLt_asymm _ _ h1] at h2
            cases h2
      subst hab
      rw [ih t2 h.cons_inv s1.of_cons s2.of_cons]

/-- A weakly sorted list with pairwise distinct names is strictly sorted. -/
theorem pairwise_lt_of_le_nodup {l : List FsTree}
    (h1 : l.Pairwise (fun a b : FsTree => bytesLe a.name b.name = true))
    (h2 : (l.map FsTree.name).Nodup) :
    l.Pairwise (fun a b : FsTree => bytesLt a.name b.name = true) := by
  have h2' : l.Pairwise (fun a b : FsTree => FsTree.name a ≠ FsTree.name b) :=
    (List.pairwise_map.mp h2)
  refine (h1.and h2').imp ?_
  intro a b hab
  rcases bytesLt_conn a.name b.name hab.2 with h | h
  · exact h
  · have := bytesLe_of_lt h
    unfold bytesLe at hab
    rw [h] at hab
    simp at hab

/-- `LPerm` permutes the sibling names. -/
theorem lperm_names {ts us : List FsTree} (h : LPerm ts us) :
    (ts.map FsTree.name).Perm (us.map FsTree.name) :=
  @LPerm.rec
    (fun t u _ => FsTree.name t = FsTree.name u)
    (fun ts us _ => (ts.map FsTree.name).Perm (us.map FsTree.name))
    (by intro n c m; rfl)
    (by intro n cs ds a ih; rfl)
    (List.Perm.refl _)
    (by intro t u ts' us' a1 a2 ih1 ih2
        simp only [List.map_cons, ih1]
        exact ih2.cons _)
    (by intro a b c d ts' us' h1 h2 h3 ih1 ih2 ih3
        simp only [List.map_cons, ih1, ih2]
        exact (List.Perm.swap _ _ _).trans ((ih3.cons _).cons _))
    (by intro ts' us' vs' a1 a2 ih1 ih2; exact ih1.trans ih2)
    _ _ h

/-- `LPerm` preserves well-formedness of sibling names. -/
theorem lperm_nodup {ts us : List FsTree} (h : LPerm ts us)
    (hn : nodupNamesL ts = true) : nodupNamesL us = true :=
  @LPerm.rec
    (fun t u _ => nodupNamesT t = true → nodupNamesT u = true)
    (fun ts us _ => nodupNamesL ts = true → nodupNamesL us = true)
    (by intro n c m h; exact h)
    (by intro n cs ds a ih hd
        show nodupNamesL ds = true
        exact ih hd)
    (by intro h; exact h)
    (by intro t u ts' us' a1 a2 ih1 ih2 hn'
        obtain ⟨hm, ht, hts⟩ := nodupL_cons hn'
        refine nodupL_build ?_ (ih1 ht) (ih2 hts)
        rw [← tperm_name a1]
        intro hmem
        exact hm ((lperm_names a2).symm.subset hmem))
    (by intro a b c d ts' us' h1 h2 h3 ih1 ih2 ih3 hn'
        obtain ⟨hma, hta, hrest⟩ := nodupL_cons hn'
        obtain ⟨hmb, htb, hts⟩ := nodupL_cons hrest
        have hna : FsTree.name a = FsTree.name c := tperm_name h1
        have hnb : FsTree.name b = FsTree.name d := tperm_name h2
        have hnames := lperm_names h3
        have hab : FsTree.name a ≠ FsTree.name b := by
          intro hh
          exact hma (by rw [hh]; exact List.mem_cons_self _ _)
        have hma' : FsTree.name a ∉ ts'.map FsTree.name := by
          intro hh
          exact hma (List.mem_cons_of_mem _ hh)
        refine nodupL_build ?_ (ih2 htb) (nodupL_build ?_ (ih1 hta) (ih3 hts))
        · rw [← hnb]
          simp only [List.map_cons, List.mem_cons, ← hna]
          rintro (hh | hh)
          · exact hab hh.symm
          · exact hmb (hnames.symm.subset hh)
        · rw [← hna]
          intro hh
          exact hma' (hnames.symm.subset hh))
    (by intro ts' us' vs' a1 a2 ih1 ih2 hn'; exact ih2 (ih1 hn'))
    _ _ h hn

/-- Sorting normalizes presentations: two presentations of the same
well-formed source tree sort to the same tree. -/
theorem sortTree_eq_of_tperm {t u : FsTree} (h : TPerm t u)
    (hn : nodupNamesT t = true) : sortTree t = sortTree u :=
  @TPerm.rec
    (fun t u _ => nodupNamesT t = true → sortTree t = sortTree u)
    (fun ts us _ => nodupNamesL ts = true → (sortTrees ts).Perm (sortTrees us))
    (by intro n c m _; rfl)
    (by intro n cs ds a ih hn'
        have hcs : nodupNamesL cs = true := hn'
        have hperm := ih hcs
        show FsTree.dir n (sortByName (sortTrees cs))
          = FsTree.dir n (sortByName (sortTrees ds))
        have hnames_cs : ((sortByName (sortTrees cs)).map FsTree.name).Nodup := by
          have h1 : ((sortByName (sortTrees cs)).map FsTree.name).Perm
              (cs.map FsTree.name) := by
            have := (sortByName_perm (sortTrees cs)).map FsTree.name
            rwa [sortTrees_names] at this
          exact h1.symm.nodup (nodupL_names cs hcs)
        have hds : nodupNamesL ds = true := lperm_nodup a hcs
        have hnames_ds : ((sortByName (sortTrees ds)).map FsTree.name).Nodup := by
          have h1 : ((sortByName (sortTrees ds)).map FsTree.name).Perm
              (ds.map FsTree.name) := by
            have := (sortByName_perm (sortTrees ds)).map FsTree.name
            rwa [sortTrees_names] at this
          exact h1.symm.nodup (nodupL_names ds hds)
        congr 1
        exact sorted_perm_eq _ _
          ((sortByName_perm _).trans (hperm.trans (sortByName_perm _).symm))
          (pairwise_lt_of_le_nodup (sortByName_sorted _) hnames_cs)
          (pairwise_lt_of_le_nodup (sortByName_sorted _) hnames_ds))
    (by intro _; exact List.Perm.refl _)
    (by intro t' u' ts' us' a1 a2 ih1 ih2 hn'
        obtain ⟨_, ht, hts⟩ := nodupL_cons hn'
        show (sortTree t' :: sortTrees ts').Perm (sortTree u' :: sortTrees us')
        rw [ih1 ht]
        exact (ih2 hts).cons _)
    (by intro a b c d ts' us' h1 h2 h3 ih1 ih2 ih3 hn'
        obtain ⟨_, hta, hrest⟩ := nodupL_cons hn'
        obtain ⟨_, htb, hts⟩ := nodupL_cons hrest
        show (sortTree a :: sortTree b :: sortTrees ts').Perm
          (sortTree d :: sortTree c :: sortTrees us')
        rw [ih1 hta, ih2 htb]
        exact (List.Perm.swap _ _ _).trans (((ih3 hts).cons _).cons _))
    (by intro ts' us' vs' a1 a2 ih1 ih2 hn'
        exact (ih1 hn').trans (ih2 (lperm_nodup a1 hn')))
    _ _ h hn

/-- C8: rendering is deterministic.  Two runs of
`renderTreeWithSettings` on the same source tree, the same values, and the
same settings — modelled as runs over any two enumeration-order
presentations of a well-formed source tree — produce the same walk output:
the same destination entries in the same order with byte-for-byte equal
file contents, the same visit sequence, and the same error, independent of
the order the operating system enumerates directory entries in. -/
theorem claim_C8_determinism (t1 t2 : FsTree) (vals : Values)
    (settings : TemplateSettings) (h : TPerm t1 t2)
    (hn : nodupNamesT t1 = true) :
    renderTreeWithSettings t1 vals settings
      = renderTreeWithSettings t2 vals settings := by
  unfold renderTreeWithSettings
  rw [sortTree_eq_of_tperm h hn]

/-- Witness for C8 at a concrete input: a root whose two children are
presented in the two possible orders renders identically. -/
theorem claim_C8_witness :
    renderTreeWithSettings
      (.dir (sb "r") [.file (sb "b.txt") (sb "B") 420,
        .dir (sb "a") [.file (sb "c.txt") (sb "C") 420]]) [] ⟨[], false⟩
    = renderTreeWithSettings
      (.dir (sb "r") [.dir (sb "a") [.file (sb "c.txt") (sb "C") 420],
        .file (sb "b.txt") (sb "B") 420]) [] ⟨[], false⟩ :=
  claim_C8_determinism _ _ [] ⟨[], false⟩
    (TPerm.dir (sb "r")
      (LPerm.swap (TPerm.file (sb "b.txt") (sb "B") 420)
        (TPerm.dir (sb "a")
          (LPerm.cons (TPerm.file (sb "c.txt") (sb "C") 420) LPerm.nil))
        LPerm.nil))
    (by decide)

end KickProofs
